import Mathlib

set_option maxRecDepth 40000

/- Verification development for the TimeLeap .dat archive codec, consisting of
the transform engine and archive assembler in pack_dat.py (encode_buffer,
create_dat_archive) and the reader in extract_dat.py (decode_buffer,
parse_dat_index, extract_and_decode).

Modelling conventions: a byte is a natural number below 256, a byte string is a
List Nat, and file names are modelled by their UTF-8 byte strings.  Fallible
operations (reading buf[0] of an empty buffer, int.to_bytes overflowing) return
Option.  Python integer division, modulo and bit operations on non-negative
values coincide with the Nat operations used here. -/

/-- Swap the low and high nibble of one byte (nibble_swap_byte in both scripts). -/
def nibble_swap_byte (b : Nat) : Nat :=
  ((b &&& 0x0F) <<< 4) ||| ((b &&& 0xF0) >>> 4)

/-- Whole-buffer nibble swap (nibble_swap in both scripts). -/
def nibble_swap (data : List Nat) : List Nat :=
  data.map nibble_swap_byte

/-- Stage T1 byte operation, from the source line
(-((buf[i] if buf[i] < 128 else buf[i]-256))) & 0xFF : reinterpret the byte as
a signed 8-bit value, negate it, and reduce modulo 256. -/
def negByte (b : Nat) : Nat :=
  ((-(if b < 128 then (b : Int) else (b : Int) - 256)) % 256).toNat

/-- The fixed ten-entry XOR key table v12. -/
def v12 : List Nat := [0xFF, 0xFF, 0xFF, 0x01, 0x9C, 0xAA, 0xA5, 0x00, 0x30, 0xFF]

/-- Key byte used by stage T2 at absolute position j: v12[(j % 6) + ((j // 5) % 5)]. -/
def keyAt (j : Nat) : Nat := v12.getD (j % 6 + (j / 5) % 5) 0

/-- One while-loop of the transform engine.  Starting from absolute position i
and stepping by stride, while i is below ep the byte at buffer cell i - a4 is
replaced by op i applied to it, guarded by a4 <= i exactly as in the source.
The fuel argument only bounds the number of iterations: every stride used is
positive, so ep - i iterations always suffice, and surplus fuel does not change
the result because the loop stops as soon as i is at least ep. -/
def strideGo (op : Nat → Nat → Nat) (stride a4 ep : Nat) :
    Nat → Nat → List Nat → List Nat
  | 0, _, buf => buf
  | fuel + 1, i, buf =>
    if i < ep then
      strideGo op stride a4 ep fuel (i + stride)
        (if a4 ≤ i then buf.set (i - a4) (op i (buf.getD (i - a4) 0)) else buf)
    else buf

/-- Run one stage loop from initial position i with enough fuel. -/
def strideLoop (op : Nat → Nat → Nat) (stride a4 ep i : Nat) (buf : List Nat) :
    List Nat :=
  strideGo op stride a4 ep (ep - i) i buf

/-- Per-byte operation of stage T1 (negation); the position is unused. -/
def t1op (_i b : Nat) : Nat := negByte b

/-- Per-byte operation of stage T2 (keyed XOR with v12). -/
def t2op (j b : Nat) : Nat := b ^^^ keyAt j

/-- Per-byte operation of stage T3 (nibble swap); the position is unused. -/
def t3op (_k b : Nat) : Nat := nibble_swap_byte b

/-- Stage T1: negate bytes at absolute positions 4n+1, scanning from
4*(a4 >> 2) + 1 in steps of 4. -/
def transform1 (a4 ep : Nat) (buf : List Nat) : List Nat :=
  strideLoop t1op 4 a4 ep (4 * (a4 / 4) + 1) buf

/-- Stage T2: XOR with the lookup table at absolute positions 3n, scanning from
3*(a4 // 3) in steps of 3. -/
def transform2 (a4 ep : Nat) (buf : List Nat) : List Nat :=
  strideLoop t2op 3 a4 ep (3 * (a4 / 3)) buf

/-- Stage T3: nibble swap at absolute positions 6n+2, scanning from
6*(a4 // 6) + 2 in steps of 6. -/
def transform3 (a4 ep : Nat) (buf : List Nat) : List Nat :=
  strideLoop t3op 6 a4 ep (6 * (a4 / 6) + 2) buf

/-- Mode 1 branch of decode_buffer: T1, then T2, then T3. -/
def decodeMode1 (a4 : Nat) (buf : List Nat) : List Nat :=
  transform3 a4 (a4 + buf.length)
    (transform2 a4 (a4 + buf.length)
      (transform1 a4 (a4 + buf.length) buf))

/-- Mode 2 branch of decode_buffer: T3, then T2, then T1. -/
def decodeMode2 (a4 : Nat) (buf : List Nat) : List Nat :=
  transform1 a4 (a4 + buf.length)
    (transform2 a4 (a4 + buf.length)
      (transform3 a4 (a4 + buf.length) buf))

/-- decode_buffer from extract_dat.py.  Mode selection: mode 1 when
start_offset is non-zero, otherwise mode 2 when buf[0] < 0x80 and mode 1
otherwise.  Reading buf[0] of an empty buffer raises IndexError in Python,
modelled as none. -/
def decode_buffer (buf : List Nat) (start_offset : Nat) : Option (List Nat) :=
  if start_offset ≠ 0 then some (decodeMode1 start_offset buf)
  else
    match buf with
    | [] => none
    | b0 :: _ => if b0 < 0x80 then some (decodeMode2 0 buf) else some (decodeMode1 0 buf)

/-- Mode 1 branch of encode_buffer: T3, then T2, then T1 (reverse of decode). -/
def encodeMode1 (a4 : Nat) (buf : List Nat) : List Nat :=
  transform1 a4 (a4 + buf.length)
    (transform2 a4 (a4 + buf.length)
      (transform3 a4 (a4 + buf.length) buf))

/-- Mode 2 branch of encode_buffer: T1, then T2, then T3 (reverse of decode). -/
def encodeMode2 (a4 : Nat) (buf : List Nat) : List Nat :=
  transform3 a4 (a4 + buf.length)
    (transform2 a4 (a4 + buf.length)
      (transform1 a4 (a4 + buf.length) buf))

/-- encode_buffer from pack_dat.py, with the same mode selection rule as
decode_buffer. -/
def encode_buffer (buf : List Nat) (start_offset : Nat) : Option (List Nat) :=
  if start_offset ≠ 0 then some (encodeMode1 start_offset buf)
  else
    match buf with
    | [] => none
    | b0 :: _ => if b0 < 0x80 then some (encodeMode2 0 buf) else some (encodeMode1 0 buf)

/-- Pointwise effect of stage T1 at absolute position pos (derived form used in
lemmas): negate exactly when pos is congruent to 1 modulo 4. -/
def t1byte (pos b : Nat) : Nat := if pos % 4 = 1 then negByte b else b

/-- Pointwise effect of stage T2 at absolute position pos: XOR with the key
byte exactly when pos is divisible by 3. -/
def t2byte (pos b : Nat) : Nat := if pos % 3 = 0 then b ^^^ keyAt pos else b

/-- Pointwise effect of stage T3 at absolute position pos: nibble swap exactly
when pos is congruent to 2 modulo 6. -/
def t3byte (pos b : Nat) : Nat := if pos % 6 = 2 then nibble_swap_byte b else b

/-- int.from_bytes(bs, "little"). -/
def fromLEbytes (l : List Nat) : Nat :=
  l.foldr (fun b acc => b + 256 * acc) 0

/-- The four little-endian base-256 digits of n. -/
def le4 (n : Nat) : List Nat :=
  [n % 256, n / 256 % 256, n / 256 ^ 2 % 256, n / 256 ^ 3 % 256]

/-- n.to_bytes(4, "little"): the four little-endian bytes, or none when n does
not fit in 32 bits (Python raises OverflowError). -/
def toLE4opt (n : Nat) : Option (List Nat) :=
  if n < 2 ^ 32 then some (le4 n) else none

/-- Python slice l[-4:], used to read the trailing file count. -/
def pyLast4 (l : List Nat) : List Nat := l.drop (l.length - 4)

/-- Python slice l[a:b] with full clamping semantics, including negative
indices counting from the end. -/
def pySlice (l : List Nat) (a b : Int) : List Nat :=
  let n : Int := l.length
  let i := (if a < 0 then max (n + a) 0 else min a n).toNat
  let j := (if b < 0 then max (n + b) 0 else min b n).toNat
  (l.take j).drop i

/-- One index record, mirroring the Entry dataclass of extract_dat.py with the
name kept as its byte string. -/
structure Entry where
  name : List Nat
  packed_size : Nat
  unpacked_size : Nat
  offset : Nat
deriving Repr, DecidableEq

/-- Decode one 80-byte index slot: the name is the bytes before the first null
byte of the first 64 bytes (ent[:64].split at the first null), followed by the
three little-endian 32-bit fields.  The Python str decode with errors ignored
is the identity on the byte content for the null-free valid UTF-8 names
considered here, so names stay byte strings. -/
def decodeEntrySlot (ent : List Nat) : Entry :=
  { name := (ent.take 64).takeWhile (fun b => b != 0)
    offset := fromLEbytes ((ent.drop 64).take 4)
    unpacked_size := fromLEbytes ((ent.drop 68).take 4)
    packed_size := fromLEbytes ((ent.drop 72).take 4) }

/-- parse_dat_index from extract_dat.py: read the trailing 4-byte little-endian
file count, nibble-swap-decode the index region located index_size bytes before
the trailer (a negative start wraps around exactly as a Python slice), and
decode file_count fixed 80-byte slots.  No validation is performed. -/
def parse_dat_index (dat : List Nat) : List Entry :=
  let file_count := fromLEbytes (pyLast4 dat)
  let index_size := file_count * 80
  let index_start : Int := (dat.length : Int) - 4 - (index_size : Int)
  let index := nibble_swap (pySlice dat index_start (index_start + (index_size : Int)))
  (List.range file_count).map (fun i => decodeEntrySlot ((index.drop (i * 80)).take 80))

/-- The read path of extract_and_decode: for each parsed entry slice
dat[offset : offset + packed_size] and decode it with start_offset 0, yielding
one (name, payload) pair; an entry whose decode raises (an empty slice) is
caught by the per-entry handler and skipped. -/
def read_archive (dat : List Nat) : List (List Nat × List Nat) :=
  (parse_dat_index dat).filterMap (fun e =>
    (decode_buffer ((dat.drop e.offset).take e.packed_size) 0).map
      (fun raw => (e.name, raw)))

/-- Build one 80-byte index slot as create_dat_archive does: the name bytes
truncated to 63, padded with nulls to 64 bytes, then offset, unpacked size and
packed size as little-endian 32-bit values and four reserved null bytes.
Returns none when a field does not fit in 32 bits. -/
def encodeEntrySlot (name : List Nat) (offset usize psize : Nat) :
    Option (List Nat) := do
  let ob ← toLE4opt offset
  let ub ← toLE4opt usize
  let pb ← toLE4opt psize
  let nb := name.take 63
  return nb ++ List.replicate (64 - nb.length) 0 ++ ob ++ ub ++ pb ++ [0, 0, 0, 0]

/-- Lexicographic byte order on names, the order in which the write path emits
entries. -/
def lexLeB : List Nat → List Nat → Bool
  | [], _ => true
  | _ :: _, [] => false
  | a :: as, b :: bs => if a < b then true else if b < a then false else lexLeB as bs

/-- Comparison of files by name, used to sort the input file list. -/
def fileLe (x y : List Nat × List Nat) : Prop := lexLeB x.1 y.1 = true

instance : DecidableRel fileLe := fun x y =>
  inferInstanceAs (Decidable (lexLeB x.1 y.1 = true))

/-- The sorted file collection of create_dat_archive (files are gathered and
sorted by name before packing). -/
def sortFiles (files : List (List Nat × List Nat)) : List (List Nat × List Nat) :=
  List.insertionSort fileLe files

/-- The encoding loop of create_dat_archive: encode each payload with
start_offset 0 and record it together with the running offset, which advances
by the encoded length. -/
def encodeFilesLoop :
    List (List Nat × List Nat) → Nat → Option (List (List Nat × List Nat × Nat))
  | [], _ => some []
  | (n, d) :: rest, off => do
    let e ← encode_buffer d 0
    let tail ← encodeFilesLoop rest (off + e.length)
    return (n, e, off) :: tail

/-- Build the index block: one 80-byte slot per encoded file, with unpacked and
packed size both equal to the encoded length, concatenated in order. -/
def buildSlots : List (List Nat × List Nat × Nat) → Option (List Nat)
  | [] => some []
  | (n, e, off) :: rest => do
    let s ← encodeEntrySlot n off e.length e.length
    let r ← buildSlots rest
    return s ++ r

/-- The write path of create_dat_archive: sort the files by name, encode each
payload at start_offset 0 assigning running offsets, concatenate the encoded
data, append the nibble-swapped index and the 4-byte little-endian file
count. -/
def write_archive (files : List (List Nat × List Nat)) : Option (List Nat) := do
  let fs := sortFiles files
  let L ← encodeFilesLoop fs 0
  let index ← buildSlots L
  let c4 ← toLE4opt files.length
  return (L.map (fun t => t.2.1)).flatten ++ nibble_swap index ++ c4

/-- Total form of encode_buffer at start_offset 0 on a non-empty buffer, used
on the proof side to avoid Option plumbing. -/
def encTotal (d : List Nat) : List Nat :=
  match d with
  | [] => []
  | b0 :: _ => if b0 < 128 then encodeMode2 0 d else encodeMode1 0 d

/-- Proof-side mirror of the encoding loop with running offsets. -/
def buildL : List (List Nat × List Nat) → Nat → List (List Nat × List Nat × Nat)
  | [], _ => []
  | (n, d) :: rest, off =>
    (n, encTotal d, off) :: buildL rest (off + (encTotal d).length)

/-- Proof-side mirror of one index slot for an encoded file record. -/
def slotOf (t : List Nat × List Nat × Nat) : List Nat :=
  t.1 ++ List.replicate (64 - t.1.length) 0 ++ le4 t.2.2 ++ le4 t.2.1.length ++
    le4 t.2.1.length ++ [0, 0, 0, 0]

/-- Running-sum offsets for a list of block lengths, starting at acc. -/
def scanOffsets : List Nat → Nat → List Nat
  | [], _ => []
  | x :: xs, acc => acc :: scanOffsets xs (acc + x)

/-- Sum of the encoded lengths of the first i files, the offset assigned to
file i by the write path. -/
def sumEnc (fs : List (List Nat × List Nat)) (i : Nat) : Nat :=
  ((fs.take i).map (fun f => (encTotal f.2).length)).sum

/-- Auxiliary: getD after set at the written index. -/
theorem getD_set_eq (l : List Nat) (i v : Nat) (h : i < l.length) :
    (l.set i v).getD i 0 = v := by
  rw [List.getD_eq_getElem _ _ (by simpa using h)]
  simp [List.getElem_set]

/-- Auxiliary: getD after set at a different index. -/
theorem getD_set_ne (l : List Nat) (i j v : Nat) (h : i ≠ j) :
    (l.set i v).getD j 0 = l.getD j 0 := by
  by_cases hj : j < l.length
  · rw [List.getD_eq_getElem _ _ (by simpa using hj), List.getD_eq_getElem _ _ hj]
    simp [List.getElem_set, h]
  · rw [List.getD_eq_default _ _ (by simpa using Nat.le_of_not_lt hj),
      List.getD_eq_default _ _ (Nat.le_of_not_lt hj)]

/-- Lists agreeing in length and in getD at every index are equal. -/
theorem ext_getD {l1 l2 : List Nat} (hl : l1.length = l2.length)
    (h : ∀ p, p < l2.length → l1.getD p 0 = l2.getD p 0) : l1 = l2 := by
  apply List.ext_getElem hl
  intro n h1 h2
  have h3 := h n h2
  rwa [List.getD_eq_getElem _ _ h1, List.getD_eq_getElem _ _ h2] at h3

/-- A stage loop never changes the buffer length. -/
theorem strideGo_length (op : Nat → Nat → Nat) (stride a4 ep : Nat) :
    ∀ (fuel i : Nat) (buf : List Nat),
      (strideGo op stride a4 ep fuel i buf).length = buf.length := by
  intro fuel
  induction fuel with
  | zero => intro i buf; rfl
  | succ n ih =>
    intro i buf
    rw [strideGo]
    split
    · rw [ih]; split <;> simp
    · rfl

/-- A stage loop on the empty buffer is the empty buffer. -/
theorem strideGo_nil (op : Nat → Nat → Nat) (stride a4 ep : Nat) :
    ∀ (fuel i : Nat), strideGo op stride a4 ep fuel i [] = [] := by
  intro fuel
  induction fuel with
  | zero => intro i; rfl
  | succ n ih =>
    intro i
    rw [strideGo]
    split
    · rw [show (if a4 ≤ i then List.set [] (i - a4) (op i (List.getD [] (i - a4) 0)) else []) = ([] : List Nat) from by split <;> rfl]
      exact ih _
    · rfl

/-- In an arithmetic progression with positive stride, a strictly later member
congruent to the start is at least one stride away. -/
theorem step_of_mod {s x i : Nat} (hle : i ≤ x) (hne : x ≠ i)
    (hmod : x % s = i % s) : i + s ≤ x := by
  have hdvd : s ∣ x - i := (Nat.modEq_iff_dvd' hle).mp hmod.symm
  have h2 : 0 < x - i := by omega
  have h3 := Nat.le_of_dvd h2 hdvd
  omega

/-- Characterisation of a stage loop: with sufficient fuel, the byte at buffer
cell p is transformed exactly when its absolute position a4 + p is reachable
from the start position i by whole strides and lies below ep. -/
theorem strideGo_getD (op : Nat → Nat → Nat) (stride a4 ep : Nat) (hs : 0 < stride) :
    ∀ (fuel i : Nat) (buf : List Nat) (p : Nat), p < buf.length →
      ep ≤ i + stride * fuel →
      (strideGo op stride a4 ep fuel i buf).getD p 0 =
        if i ≤ a4 + p ∧ a4 + p < ep ∧ (a4 + p) % stride = i % stride
        then op (a4 + p) (buf.getD p 0) else buf.getD p 0 := by
  intro fuel
  induction fuel with
  | zero =>
    intro i buf p hp hfuel
    rw [if_neg]
    · rfl
    · rintro ⟨h1, h2, _⟩
      omega
  | succ n ih =>
    intro i buf p hp hfuel
    rw [strideGo]
    by_cases hi : i < ep
    · rw [if_pos hi]
      have hlen : (if a4 ≤ i then buf.set (i - a4) (op i (buf.getD (i - a4) 0)) else buf).length = buf.length := by
        split <;> simp
      have hfuel2 : ep ≤ i + stride + stride * n := by
        rw [Nat.mul_succ] at hfuel; omega
      rw [ih (i + stride) _ p (by rw [hlen]; exact hp) hfuel2]
      by_cases hip : a4 + p = i
      · have hga : a4 ≤ i := by omega
        have hidx : i - a4 = p := by omega
        rw [if_pos hga, hidx, getD_set_eq _ _ _ hp,
          if_neg (show ¬(i + stride ≤ a4 + p ∧ a4 + p < ep ∧
            (a4 + p) % stride = (i + stride) % stride) from by rintro ⟨h1, _, _⟩; omega),
          if_pos ⟨by omega, by omega, by rw [hip]⟩, hip]
      · have hbuf2 : (if a4 ≤ i then buf.set (i - a4) (op i (buf.getD (i - a4) 0)) else buf).getD p 0 = buf.getD p 0 := by
          split
          · exact getD_set_ne _ _ _ _ (by omega)
          · rfl
        rw [hbuf2]
        have hmodst : (i + stride) % stride = i % stride := Nat.add_mod_right i stride
        by_cases hc : i ≤ a4 + p ∧ a4 + p < ep ∧ (a4 + p) % stride = i % stride
        · have hstep : i + stride ≤ a4 + p := step_of_mod hc.1 hip hc.2.2
          rw [if_pos ⟨hstep, hc.2.1, by rw [hmodst]; exact hc.2.2⟩, if_pos hc]
        · rw [if_neg (by rintro ⟨h1, h2, h3⟩; rw [hmodst] at h3; exact hc ⟨by omega, h2, h3⟩),
            if_neg hc]
    · rw [if_neg hi, if_neg (show ¬(i ≤ a4 + p ∧ a4 + p < ep ∧
        (a4 + p) % stride = i % stride) from by rintro ⟨h1, h2, _⟩; omega)]

/-- Characterisation of strideLoop: ep - i iterations of fuel always suffice. -/
theorem strideLoop_getD (op : Nat → Nat → Nat) (stride a4 ep i : Nat) (hs : 0 < stride)
    (buf : List Nat) (p : Nat) (hp : p < buf.length) :
    (strideLoop op stride a4 ep i buf).getD p 0 =
      if i ≤ a4 + p ∧ a4 + p < ep ∧ (a4 + p) % stride = i % stride
      then op (a4 + p) (buf.getD p 0) else buf.getD p 0 := by
  apply strideGo_getD op stride a4 ep hs (ep - i) i buf p hp
  have h1 : 1 * (ep - i) ≤ stride * (ep - i) := Nat.mul_le_mul_right _ hs
  omega

theorem transform1_length (a4 ep : Nat) (buf : List Nat) :
    (transform1 a4 ep buf).length = buf.length :=
  strideGo_length _ _ _ _ _ _ _

theorem transform2_length (a4 ep : Nat) (buf : List Nat) :
    (transform2 a4 ep buf).length = buf.length :=
  strideGo_length _ _ _ _ _ _ _

theorem transform3_length (a4 ep : Nat) (buf : List Nat) :
    (transform3 a4 ep buf).length = buf.length :=
  strideGo_length _ _ _ _ _ _ _

/-- Stage T1 acts pointwise: it negates exactly the bytes whose absolute
position is congruent to 1 modulo 4. -/
theorem transform1_getD (a4 ep : Nat) (buf : List Nat) (p : Nat) (hp : p < buf.length)
    (he : ep = a4 + buf.length) :
    (transform1 a4 ep buf).getD p 0 = t1byte (a4 + p) (buf.getD p 0) := by
  rw [transform1, strideLoop_getD _ _ _ _ _ (by omega) _ _ hp, t1byte]
  have hc : (4 * (a4 / 4) + 1 ≤ a4 + p ∧ a4 + p < ep ∧ (a4 + p) % 4 = (4 * (a4 / 4) + 1) % 4) ↔
      (a4 + p) % 4 = 1 := by
    constructor
    · rintro ⟨h1, h2, h3⟩; omega
    · intro h1; exact ⟨by omega, by omega, by omega⟩
  rw [if_congr hc rfl rfl]
  rfl

/-- Stage T2 acts pointwise: it XORs with the key byte exactly at absolute
positions divisible by 3. -/
theorem transform2_getD (a4 ep : Nat) (buf : List Nat) (p : Nat) (hp : p < buf.length)
    (he : ep = a4 + buf.length) :
    (transform2 a4 ep buf).getD p 0 = t2byte (a4 + p) (buf.getD p 0) := by
  rw [transform2, strideLoop_getD _ _ _ _ _ (by omega) _ _ hp, t2byte]
  have hc : (3 * (a4 / 3) ≤ a4 + p ∧ a4 + p < ep ∧ (a4 + p) % 3 = 3 * (a4 / 3) % 3) ↔
      (a4 + p) % 3 = 0 := by
    constructor
    · rintro ⟨h1, h2, h3⟩; omega
    · intro h1; exact ⟨by omega, by omega, by omega⟩
  rw [if_congr hc rfl rfl]
  rfl

/-- Stage T3 acts pointwise: it nibble-swaps exactly the bytes whose absolute
position is congruent to 2 modulo 6. -/
theorem transform3_getD (a4 ep : Nat) (buf : List Nat) (p : Nat) (hp : p < buf.length)
    (he : ep = a4 + buf.length) :
    (transform3 a4 ep buf).getD p 0 = t3byte (a4 + p) (buf.getD p 0) := by
  rw [transform3, strideLoop_getD _ _ _ _ _ (by omega) _ _ hp, t3byte]
  have hc : (6 * (a4 / 6) + 2 ≤ a4 + p ∧ a4 + p < ep ∧ (a4 + p) % 6 = (6 * (a4 / 6) + 2) % 6) ↔
      (a4 + p) % 6 = 2 := by
    constructor
    · rintro ⟨h1, h2, h3⟩; omega
    · intro h1; exact ⟨by omega, by omega, by omega⟩
  rw [if_congr hc rfl rfl]
  rfl

theorem negByte_lt (b : Nat) : negByte b < 256 := by
  unfold negByte
  have h1 : (0 : Int) ≤ (-(if b < 128 then (b : Int) else (b : Int) - 256)) % 256 :=
    Int.emod_nonneg _ (by norm_num)
  have h2 : (-(if b < 128 then (b : Int) else (b : Int) - 256)) % 256 < 256 :=
    Int.emod_lt_of_pos _ (by norm_num)
  omega

theorem negByte_invol : ∀ b : Nat, b < 256 → negByte (negByte b) = b := by decide

theorem nibble_swap_byte_lt : ∀ b : Nat, b < 256 → nibble_swap_byte b < 256 := by decide

theorem nibble_swap_byte_invol : ∀ b : Nat, b < 256 →
    nibble_swap_byte (nibble_swap_byte b) = b := by decide

theorem keyAt_lt (j : Nat) : keyAt j < 256 := by
  have h6 : j % 6 < 6 := Nat.mod_lt _ (by norm_num)
  have h5 : j / 5 % 5 < 5 := Nat.mod_lt _ (by norm_num)
  have h10 : ∀ i : Nat, i < 10 → v12.getD i 0 < 256 := by decide
  exact h10 _ (by omega)

theorem xor_byte_lt {a b : Nat} (ha : a < 256) (hb : b < 256) : a ^^^ b < 256 := by
  have h256 : (256 : Nat) = 2 ^ 8 := by norm_num
  rw [h256] at ha hb ⊢
  exact Nat.xor_lt_two_pow ha hb

theorem xor_cancel (b k : Nat) : (b ^^^ k) ^^^ k = b := by
  rw [Nat.xor_assoc, Nat.xor_self, Nat.xor_zero]

theorem t1byte_lt (pos b : Nat) (_hb : b < 256) : t1byte pos b < 256 := by
  unfold t1byte
  split
  · exact negByte_lt _
  · exact _hb

theorem t2byte_lt (pos b : Nat) (hb : b < 256) : t2byte pos b < 256 := by
  unfold t2byte
  split
  · exact xor_byte_lt hb (keyAt_lt pos)
  · exact hb

theorem t3byte_lt (pos b : Nat) (hb : b < 256) : t3byte pos b < 256 := by
  unfold t3byte
  split
  · exact nibble_swap_byte_lt _ hb
  · exact hb

theorem t1byte_invol (pos b : Nat) (hb : b < 256) : t1byte pos (t1byte pos b) = b := by
  simp only [t1byte]
  by_cases h : pos % 4 = 1 <;> simp [h, negByte_invol b hb]

theorem t2byte_invol (pos b : Nat) : t2byte pos (t2byte pos b) = b := by
  simp only [t2byte]
  by_cases h : pos % 3 = 0 <;> simp [h, xor_cancel]

theorem t3byte_invol (pos b : Nat) (hb : b < 256) : t3byte pos (t3byte pos b) = b := by
  simp only [t3byte]
  by_cases h : pos % 6 = 2 <;> simp [h, nibble_swap_byte_invol b hb]

/-- Decoding in mode 1 undoes encoding in mode 1 pointwise. -/
theorem sandwichInv1 (pos b : Nat) (hb : b < 256) :
    t3byte pos (t2byte pos (t1byte pos (t1byte pos (t2byte pos (t3byte pos b))))) = b := by
  rw [t1byte_invol _ _ (t2byte_lt _ _ (t3byte_lt _ _ hb)), t2byte_invol,
    t3byte_invol _ _ hb]

/-- Decoding in mode 2 undoes encoding in mode 2 pointwise. -/
theorem sandwichInv2 (pos b : Nat) (hb : b < 256) :
    t1byte pos (t2byte pos (t3byte pos (t3byte pos (t2byte pos (t1byte pos b))))) = b := by
  rw [t3byte_invol _ _ (t2byte_lt _ _ (t1byte_lt _ _ hb)), t2byte_invol,
    t1byte_invol _ _ hb]

/-- Applying the T1, T2, T3 stage bytes twice in the same order is the identity
at positions where T1 and T2 do not overlap (positions not congruent to
9 modulo 12). -/
theorem sandwichA (pos b : Nat) (hb : b < 256) (h : ¬(pos % 4 = 1 ∧ pos % 3 = 0)) :
    t1byte pos (t2byte pos (t3byte pos (t1byte pos (t2byte pos (t3byte pos b))))) = b := by
  by_cases h6 : pos % 6 = 2
  · have h4 : pos % 4 ≠ 1 := by omega
    have h3 : pos % 3 ≠ 0 := by omega
    simp only [t1byte, t2byte, t3byte, if_pos h6, if_neg h4, if_neg h3]
    exact nibble_swap_byte_invol b hb
  · by_cases h4 : pos % 4 = 1
    · have h3 : pos % 3 ≠ 0 := fun hc => h ⟨h4, hc⟩
      simp only [t1byte, t2byte, t3byte, if_pos h4, if_neg h3, if_neg h6]
      exact negByte_invol b hb
    · by_cases h3 : pos % 3 = 0
      · simp only [t1byte, t2byte, t3byte, if_pos h3, if_neg h4, if_neg h6]
        exact xor_cancel b _
      · simp only [t1byte, t2byte, t3byte, if_neg h3, if_neg h4, if_neg h6]

/-- Mirror image of sandwichA for the opposite stage order. -/
theorem sandwichB (pos b : Nat) (hb : b < 256) (h : ¬(pos % 4 = 1 ∧ pos % 3 = 0)) :
    t3byte pos (t2byte pos (t1byte pos (t3byte pos (t2byte pos (t1byte pos b))))) = b := by
  by_cases h6 : pos % 6 = 2
  · have h4 : pos % 4 ≠ 1 := by omega
    have h3 : pos % 3 ≠ 0 := by omega
    simp only [t1byte, t2byte, t3byte, if_pos h6, if_neg h4, if_neg h3]
    exact nibble_swap_byte_invol b hb
  · by_cases h4 : pos % 4 = 1
    · have h3 : pos % 3 ≠ 0 := fun hc => h ⟨h4, hc⟩
      simp only [t1byte, t2byte, t3byte, if_pos h4, if_neg h3, if_neg h6]
      exact negByte_invol b hb
    · by_cases h3 : pos % 3 = 0
      · simp only [t1byte, t2byte, t3byte, if_pos h3, if_neg h4, if_neg h6]
        exact xor_cancel b _
      · simp only [t1byte, t2byte, t3byte, if_neg h3, if_neg h4, if_neg h6]

theorem decodeMode1_length (a4 : Nat) (buf : List Nat) :
    (decodeMode1 a4 buf).length = buf.length := by
  rw [decodeMode1, transform3_length, transform2_length, transform1_length]

theorem decodeMode2_length (a4 : Nat) (buf : List Nat) :
    (decodeMode2 a4 buf).length = buf.length := by
  rw [decodeMode2, transform1_length, transform2_length, transform3_length]

theorem encodeMode1_length (a4 : Nat) (buf : List Nat) :
    (encodeMode1 a4 buf).length = buf.length := by
  rw [encodeMode1, transform1_length, transform2_length, transform3_length]

theorem encodeMode2_length (a4 : Nat) (buf : List Nat) :
    (encodeMode2 a4 buf).length = buf.length := by
  rw [encodeMode2, transform3_length, transform2_length, transform1_length]

theorem decodeMode1_getD (a4 : Nat) (buf : List Nat) (p : Nat) (hp : p < buf.length) :
    (decodeMode1 a4 buf).getD p 0 =
      t3byte (a4 + p) (t2byte (a4 + p) (t1byte (a4 + p) (buf.getD p 0))) := by
  have h1 : (transform1 a4 (a4 + buf.length) buf).length = buf.length :=
    transform1_length _ _ _
  have h2 : (transform2 a4 (a4 + buf.length) (transform1 a4 (a4 + buf.length) buf)).length = buf.length := by
    rw [transform2_length, h1]
  rw [decodeMode1, transform3_getD _ _ _ p (by rw [h2]; exact hp) (by rw [h2]),
    transform2_getD _ _ _ p (by rw [h1]; exact hp) (by rw [h1]),
    transform1_getD _ _ _ p hp rfl]

theorem decodeMode2_getD (a4 : Nat) (buf : List Nat) (p : Nat) (hp : p < buf.length) :
    (decodeMode2 a4 buf).getD p 0 =
      t1byte (a4 + p) (t2byte (a4 + p) (t3byte (a4 + p) (buf.getD p 0))) := by
  have h1 : (transform3 a4 (a4 + buf.length) buf).length = buf.length :=
    transform3_length _ _ _
  have h2 : (transform2 a4 (a4 + buf.length) (transform3 a4 (a4 + buf.length) buf)).length = buf.length := by
    rw [transform2_length, h1]
  rw [decodeMode2, transform1_getD _ _ _ p (by rw [h2]; exact hp) (by rw [h2]),
    transform2_getD _ _ _ p (by rw [h1]; exact hp) (by rw [h1]),
    transform3_getD _ _ _ p hp rfl]

theorem encodeMode1_getD (a4 : Nat) (buf : List Nat) (p : Nat) (hp : p < buf.length) :
    (encodeMode1 a4 buf).getD p 0 =
      t1byte (a4 + p) (t2byte (a4 + p) (t3byte (a4 + p) (buf.getD p 0))) := by
  have h1 : (transform3 a4 (a4 + buf.length) buf).length = buf.length :=
    transform3_length _ _ _
  have h2 : (transform2 a4 (a4 + buf.length) (transform3 a4 (a4 + buf.length) buf)).length = buf.length := by
    rw [transform2_length, h1]
  rw [encodeMode1, transform1_getD _ _ _ p (by rw [h2]; exact hp) (by rw [h2]),
    transform2_getD _ _ _ p (by rw [h1]; exact hp) (by rw [h1]),
    transform3_getD _ _ _ p hp rfl]

theorem encodeMode2_getD (a4 : Nat) (buf : List Nat) (p : Nat) (hp : p < buf.length) :
    (encodeMode2 a4 buf).getD p 0 =
      t3byte (a4 + p) (t2byte (a4 + p) (t1byte (a4 + p) (buf.getD p 0))) := by
  have h1 : (transform1 a4 (a4 + buf.length) buf).length = buf.length :=
    transform1_length _ _ _
  have h2 : (transform2 a4 (a4 + buf.length) (transform1 a4 (a4 + buf.length) buf)).length = buf.length := by
    rw [transform2_length, h1]
  rw [encodeMode2, transform3_getD _ _ _ p (by rw [h2]; exact hp) (by rw [h2]),
    transform2_getD _ _ _ p (by rw [h1]; exact hp) (by rw [h1]),
    transform1_getD _ _ _ p hp rfl]

theorem getD_mem (l : List Nat) (p : Nat) (hp : p < l.length) : l.getD p 0 ∈ l := by
  rw [List.getD_eq_getElem _ _ hp]
  exact List.getElem_mem _

theorem decodeMode1_nil (a4 : Nat) : decodeMode1 a4 [] = [] := by
  simp [decodeMode1, transform1, transform2, transform3, strideLoop, strideGo_nil]

theorem encodeMode1_nil (a4 : Nat) : encodeMode1 a4 [] = [] := by
  simp [encodeMode1, transform1, transform2, transform3, strideLoop, strideGo_nil]

/-- When encode and decode agree on mode 1, the round trip is exact (the three
stages cancel in reverse order). -/
theorem roundtrip_mode1 (s : Nat) (buf : List Nat) (hb : ∀ b ∈ buf, b < 256) :
    decodeMode1 s (encodeMode1 s buf) = buf := by
  apply ext_getD
  · rw [decodeMode1_length, encodeMode1_length]
  · intro p hp
    have hpe : p < (encodeMode1 s buf).length := by rw [encodeMode1_length]; exact hp
    rw [decodeMode1_getD _ _ _ hpe, encodeMode1_getD _ _ _ hp]
    exact sandwichInv1 (s + p) _ (hb _ (getD_mem _ _ hp))

/-- The first byte of a mode-1 encode at start offset 0 is the plaintext first
byte XORed with 0xFF (stage T2 applies key v12[0] at position 0; stages T1 and
T3 do not touch position 0). -/
theorem encodeMode1_head (b0 : Nat) (rest : List Nat) :
    (encodeMode1 0 (b0 :: rest)).getD 0 0 = b0 ^^^ 255 := by
  have h := encodeMode1_getD 0 (b0 :: rest) 0 (by simp)
  rw [h]
  norm_num [t1byte, t2byte, t3byte, keyAt, v12]

/-- The first byte of a mode-2 encode at start offset 0 is also the plaintext
first byte XORed with 0xFF. -/
theorem encodeMode2_head (b0 : Nat) (rest : List Nat) :
    (encodeMode2 0 (b0 :: rest)).getD 0 0 = b0 ^^^ 255 := by
  have h := encodeMode2_getD 0 (b0 :: rest) 0 (by simp)
  rw [h]
  norm_num [t1byte, t2byte, t3byte, keyAt, v12]

/-- XOR with 0xFF always flips the high bit of a byte. -/
theorem xor255_semantics : ∀ b : Nat, b < 256 →
    (b < 128 → 128 ≤ b ^^^ 255) ∧ (128 ≤ b → b ^^^ 255 < 128) := by decide

/-- Decoding in mode 1 after encoding in mode 2 (the mismatched pair selected
at start offset 0 for a plaintext first byte below 0x80) recovers payloads of
at most 9 bytes. -/
theorem decode1_encode2 (buf : List Nat) (hlen : buf.length ≤ 9)
    (hb : ∀ b ∈ buf, b < 256) :
    decodeMode1 0 (encodeMode2 0 buf) = buf := by
  apply ext_getD
  · rw [decodeMode1_length, encodeMode2_length]
  · intro p hp
    have hpe : p < (encodeMode2 0 buf).length := by rw [encodeMode2_length]; exact hp
    rw [decodeMode1_getD _ _ _ hpe, encodeMode2_getD _ _ _ hp]
    simp only [Nat.zero_add]
    exact sandwichB p _ (hb _ (getD_mem _ _ hp)) (by omega)

/-- Decoding in mode 2 after encoding in mode 1 (the mismatched pair selected
at start offset 0 for a plaintext first byte at least 0x80) recovers payloads
of at most 9 bytes. -/
theorem decode2_encode1 (buf : List Nat) (hlen : buf.length ≤ 9)
    (hb : ∀ b ∈ buf, b < 256) :
    decodeMode2 0 (encodeMode1 0 buf) = buf := by
  apply ext_getD
  · rw [decodeMode2_length, encodeMode1_length]
  · intro p hp
    have hpe : p < (encodeMode1 0 buf).length := by rw [encodeMode1_length]; exact hp
    rw [decodeMode2_getD _ _ _ hpe, encodeMode1_getD _ _ _ hp]
    simp only [Nat.zero_add]
    exact sandwichA p _ (hb _ (getD_mem _ _ hp)) (by omega)

/-- Round trip at start offset 0 for any non-empty payload of at most 9 bytes:
the encoder and decoder always disagree on the mode (the encoded first byte has
its high bit flipped), but up to position 8 the stage sets are disjoint, so the
double application still cancels. -/
theorem roundtrip_len9 (buf : List Nat) (hne : buf ≠ []) (hlen : buf.length ≤ 9)
    (hb : ∀ b ∈ buf, b < 256) :
    (encode_buffer buf 0).bind (fun e => decode_buffer e 0) = some buf := by
  obtain ⟨b0, rest, rfl⟩ : ∃ b0 rest, buf = b0 :: rest := by
    cases buf with
    | nil => exact absurd rfl hne
    | cons x xs => exact ⟨x, xs, rfl⟩
  have hb0 : b0 < 256 := hb _ (by simp)
  by_cases h0 : b0 < 128
  · have hE : encode_buffer (b0 :: rest) 0 = some (encodeMode2 0 (b0 :: rest)) := by
      simp [encode_buffer, h0]
    rw [hE]
    set e := encodeMode2 0 (b0 :: rest) with hEdef
    have hlenE : e.length = rest.length + 1 := by rw [hEdef, encodeMode2_length]; rfl
    obtain ⟨e0, e2, hEcons⟩ : ∃ e0 e2, e = e0 :: e2 := by
      cases hc : e with
      | nil => rw [hc] at hlenE; simp at hlenE
      | cons x xs => exact ⟨x, xs, rfl⟩
    have hE0 : e0 = b0 ^^^ 255 := by
      have h := encodeMode2_head b0 rest
      rw [← hEdef, hEcons] at h
      simpa using h
    have hge : ¬ e0 < 128 := by
      have h2 := (xor255_semantics b0 hb0).1 h0
      omega
    have hD : decode_buffer e 0 = some (decodeMode1 0 e) := by
      rw [hEcons]
      simp [decode_buffer, hge]
    calc (some e).bind (fun x => decode_buffer x 0) = decode_buffer e 0 := rfl
      _ = some (decodeMode1 0 e) := hD
      _ = some (b0 :: rest) := by rw [hEdef, decode1_encode2 _ hlen hb]
  · have hE : encode_buffer (b0 :: rest) 0 = some (encodeMode1 0 (b0 :: rest)) := by
      simp [encode_buffer, h0]
    rw [hE]
    set e := encodeMode1 0 (b0 :: rest) with hEdef
    have hlenE : e.length = rest.length + 1 := by rw [hEdef, encodeMode1_length]; rfl
    obtain ⟨e0, e2, hEcons⟩ : ∃ e0 e2, e = e0 :: e2 := by
      cases hc : e with
      | nil => rw [hc] at hlenE; simp at hlenE
      | cons x xs => exact ⟨x, xs, rfl⟩
    have hE0 : e0 = b0 ^^^ 255 := by
      have h := encodeMode1_head b0 rest
      rw [← hEdef, hEcons] at h
      simpa using h
    have hlt : e0 < 128 := by
      have h2 := (xor255_semantics b0 hb0).2 (by omega)
      omega
    have hD : decode_buffer e 0 = some (decodeMode2 0 e) := by
      rw [hEcons]
      simp [decode_buffer, hlt]
    calc (some e).bind (fun x => decode_buffer x 0) = decode_buffer e 0 := rfl
      _ = some (decodeMode2 0 e) := hD
      _ = some (b0 :: rest) := by rw [hEdef, decode2_encode1 _ hlen hb]

/-- Round trip at any non-zero start offset: both sides pick mode 1. -/
theorem roundtrip_offset (buf : List Nat) (s : Nat) (hs : s ≠ 0)
    (hb : ∀ b ∈ buf, b < 256) :
    (encode_buffer buf s).bind (fun e => decode_buffer e s) = some buf := by
  rw [show encode_buffer buf s = some (encodeMode1 s buf) from by simp [encode_buffer, hs]]
  calc (some (encodeMode1 s buf)).bind (fun e => decode_buffer e s)
      = decode_buffer (encodeMode1 s buf) s := rfl
    _ = some (decodeMode1 s (encodeMode1 s buf)) := by simp [decode_buffer, hs]
    _ = some buf := by rw [roundtrip_mode1 s buf hb]

theorem le4_length (n : Nat) : (le4 n).length = 4 := rfl

theorem le4_lt (n : Nat) : ∀ b ∈ le4 n, b < 256 := by
  intro b hb
  simp only [le4, List.mem_cons, List.not_mem_nil, or_false] at hb
  rcases hb with h | h | h | h <;> subst h <;> exact Nat.mod_lt _ (by norm_num)

theorem fromLE_le4 (n : Nat) (h : n < 2 ^ 32) : fromLEbytes (le4 n) = n := by
  simp only [fromLEbytes, le4, List.foldr]
  norm_num
  omega

theorem toLE4opt_eq (n : Nat) (h : n < 2 ^ 32) : toLE4opt n = some (le4 n) := by
  rw [toLE4opt, if_pos h]

theorem encodeEntrySlot_eq (name : List Nat) (o u p : Nat) (hn : name.length ≤ 63)
    (ho : o < 2 ^ 32) (hu : u < 2 ^ 32) (hp : p < 2 ^ 32) :
    encodeEntrySlot name o u p =
      some (name ++ List.replicate (64 - name.length) 0 ++ le4 o ++ le4 u ++ le4 p ++
        [0, 0, 0, 0]) := by
  simp [encodeEntrySlot, toLE4opt_eq _ ho, toLE4opt_eq _ hu, toLE4opt_eq _ hp,
    List.take_of_length_le (by omega : name.length ≤ 63)]

theorem slot_shape_length (name : List Nat) (o u p : Nat) (hn : name.length ≤ 63) :
    (name ++ List.replicate (64 - name.length) 0 ++ le4 o ++ le4 u ++ le4 p ++
      [0, 0, 0, 0]).length = 80 := by
  simp [le4]
  omega

theorem slot_shape_bytes_lt (name : List Nat) (o u p : Nat)
    (hb : ∀ b ∈ name, b < 256) :
    ∀ b ∈ name ++ List.replicate (64 - name.length) 0 ++ le4 o ++ le4 u ++ le4 p ++
      [0, 0, 0, 0], b < 256 := by
  intro b hbm
  rcases List.mem_append.mp hbm with hbm2 | h
  · rcases List.mem_append.mp hbm2 with hbm3 | h
    · rcases List.mem_append.mp hbm3 with hbm4 | h
      · rcases List.mem_append.mp hbm4 with hbm5 | h
        · rcases List.mem_append.mp hbm5 with h | h
          · exact hb _ h
          · rw [List.eq_of_mem_replicate h]; omega
        · exact le4_lt o b h
      · exact le4_lt u b h
    · exact le4_lt p b h
  · simp only [List.mem_cons, List.not_mem_nil, or_false] at h
    rcases h with h | h | h | h <;> omega

theorem takeWhile_append_all (l1 l2 : List Nat) (h : ∀ b ∈ l1, b ≠ 0) :
    (l1 ++ l2).takeWhile (fun b => b != 0) =
      l1 ++ l2.takeWhile (fun b => b != 0) := by
  induction l1 with
  | nil => simp
  | cons a as ih =>
    have ha : (a != 0) = true := by simpa using h a (by simp)
    simp only [List.cons_append, List.takeWhile_cons, ha, if_true]
    rw [ih (fun b hb => h b (by simp [hb]))]

theorem takeWhile_replicate_zero (k : Nat) :
    (List.replicate k (0 : Nat)).takeWhile (fun b => b != 0) = [] := by
  cases k with
  | zero => rfl
  | succ m => simp [List.replicate_succ, List.takeWhile_cons]

theorem drop4_le4 (n : Nat) (X : List Nat) : (le4 n ++ X).drop 4 = X := by
  rw [show (4 : Nat) = (le4 n).length from rfl, List.drop_left]

theorem take4_le4 (n : Nat) (X : List Nat) : (le4 n ++ X).take 4 = le4 n := by
  rw [show (4 : Nat) = (le4 n).length from rfl, List.take_left]

/-- Round trip of one index slot: for a null-free name of at most 63 bytes and
32-bit fields, decoding the encoded slot recovers the entry. -/
theorem decodeEntrySlot_eq (name : List Nat) (o u p : Nat) (hn : name.length ≤ 63)
    (hz : ∀ b ∈ name, b ≠ 0) (ho : o < 2 ^ 32) (hu : u < 2 ^ 32) (hp : p < 2 ^ 32) :
    decodeEntrySlot (name ++ List.replicate (64 - name.length) 0 ++ le4 o ++ le4 u ++
      le4 p ++ [0, 0, 0, 0]) =
      { name := name, packed_size := p, unpacked_size := u, offset := o } := by
  have hassoc : name ++ List.replicate (64 - name.length) 0 ++ le4 o ++ le4 u ++
      le4 p ++ [0, 0, 0, 0] =
      (name ++ List.replicate (64 - name.length) 0) ++
        (le4 o ++ (le4 u ++ (le4 p ++ [0, 0, 0, 0]))) := by
    simp [List.append_assoc]
  have hlen64 : (name ++ List.replicate (64 - name.length) 0).length = 64 := by
    simp
    omega
  have htake64 : ∀ A X : List Nat, A.length = 64 → (A ++ X).take 64 = A := by
    intro A X hA
    rw [← hA, List.take_left]
  have hdrop64 : ∀ A X : List Nat, A.length = 64 → (A ++ X).drop 64 = X := by
    intro A X hA
    rw [← hA, List.drop_left]
  have htake : (name ++ List.replicate (64 - name.length) 0 ++ le4 o ++ le4 u ++
      le4 p ++ [0, 0, 0, 0]).take 64 = name ++ List.replicate (64 - name.length) 0 := by
    rw [hassoc]
    exact htake64 _ _ hlen64
  have hdrop : (name ++ List.replicate (64 - name.length) 0 ++ le4 o ++ le4 u ++
      le4 p ++ [0, 0, 0, 0]).drop 64 = le4 o ++ (le4 u ++ (le4 p ++ [0, 0, 0, 0])) := by
    rw [hassoc]
    exact hdrop64 _ _ hlen64
  simp only [decodeEntrySlot, Entry.mk.injEq]
  refine ⟨?_, ?_, ?_, ?_⟩
  · rw [htake, takeWhile_append_all _ _ hz, takeWhile_replicate_zero, List.append_nil]
  · rw [show (72 : Nat) = 64 + 8 from rfl, ← List.drop_drop, hdrop,
      show (8 : Nat) = 4 + 4 from rfl, ← List.drop_drop, drop4_le4, drop4_le4,
      take4_le4, fromLE_le4 _ hp]
  · rw [show (68 : Nat) = 64 + 4 from rfl, ← List.drop_drop, hdrop, drop4_le4,
      take4_le4, fromLE_le4 _ hu]
  · rw [hdrop, take4_le4, fromLE_le4 _ ho]

theorem nibble_swap_length (l : List Nat) : (nibble_swap l).length = l.length := by
  simp [nibble_swap]

theorem nibble_swap_invol (l : List Nat) (h : ∀ b ∈ l, b < 256) :
    nibble_swap (nibble_swap l) = l := by
  simp only [nibble_swap, List.map_map]
  have h2 : ∀ b ∈ l, (nibble_swap_byte ∘ nibble_swap_byte) b = id b := fun b hb =>
    nibble_swap_byte_invol b (h b hb)
  rw [List.map_congr_left h2, List.map_id]

theorem encode_buffer_eq_encTotal (d : List Nat) (h : d ≠ []) :
    encode_buffer d 0 = some (encTotal d) := by
  cases d with
  | nil => exact absurd rfl h
  | cons b0 rest =>
    by_cases hb : b0 < 128 <;> simp [encode_buffer, encTotal, hb]

theorem encTotal_length (d : List Nat) : (encTotal d).length = d.length := by
  cases d with
  | nil => rfl
  | cons b0 rest =>
    by_cases hb : b0 < 128 <;>
      simp [encTotal, hb, encodeMode1_length, encodeMode2_length]

/-- Decoding an encoded payload of at most 9 bytes at start offset 0 recovers
the payload. -/
theorem decode_encTotal (d : List Nat) (hne : d ≠ []) (hlen : d.length ≤ 9)
    (hb : ∀ b ∈ d, b < 256) : decode_buffer (encTotal d) 0 = some d := by
  have h := roundtrip_len9 d hne hlen hb
  rw [encode_buffer_eq_encTotal d hne, Option.some_bind] at h
  exact h

theorem encodeFilesLoop_eq (fs : List (List Nat × List Nat)) :
    ∀ off : Nat, (∀ f ∈ fs, f.2 ≠ []) →
      encodeFilesLoop fs off = some (buildL fs off) := by
  induction fs with
  | nil => intro off _; rfl
  | cons f rest ih =>
    intro off h
    obtain ⟨n, d⟩ := f
    have hd : d ≠ [] := h (n, d) (by simp)
    simp [encodeFilesLoop, encode_buffer_eq_encTotal d hd,
      ih _ (fun g hg => h g (by simp [hg])), buildL]

theorem buildL_length (fs : List (List Nat × List Nat)) :
    ∀ off, (buildL fs off).length = fs.length := by
  induction fs with
  | nil => intro off; rfl
  | cons f rest ih =>
    intro off
    obtain ⟨n, d⟩ := f
    simp [buildL, ih]

theorem buildL_map_payload (fs : List (List Nat × List Nat)) :
    ∀ off, (buildL fs off).map (fun t => t.2.1) = fs.map (fun f => encTotal f.2) := by
  induction fs with
  | nil => intro off; rfl
  | cons f rest ih =>
    intro off
    obtain ⟨n, d⟩ := f
    simp [buildL, ih]

theorem buildL_map_name (fs : List (List Nat × List Nat)) :
    ∀ off, (buildL fs off).map (fun t => t.1) = fs.map (fun f => f.1) := by
  induction fs with
  | nil => intro off; rfl
  | cons f rest ih =>
    intro off
    obtain ⟨n, d⟩ := f
    simp [buildL, ih]

theorem sumEnc_succ (fs : List (List Nat × List Nat)) (i : Nat) (hi : i < fs.length) :
    sumEnc fs (i + 1) = sumEnc fs i + (encTotal (fs.getD i ([], [])).2).length := by
  rw [sumEnc, sumEnc, List.take_succ]
  have h : fs[i]? = some (fs.getD i ([], [])) := by
    rw [List.getD_eq_getElem _ _ hi]
    exact List.getElem?_eq_getElem hi
  rw [h]
  simp

theorem sumEnc_le_sum (fs : List (List Nat × List Nat)) (i : Nat) :
    sumEnc fs i ≤ (fs.map (fun f => (encTotal f.2).length)).sum := by
  rw [sumEnc]
  conv_rhs => rw [← List.take_append_drop i fs]
  rw [List.map_append, List.sum_append]
  omega

theorem buildL_getD (fs : List (List Nat × List Nat)) :
    ∀ off i, i < fs.length →
      (buildL fs off).getD i ([], [], 0) =
        ((fs.getD i ([], [])).1, encTotal (fs.getD i ([], [])).2, off + sumEnc fs i) := by
  induction fs with
  | nil => intro off i hi; simp at hi
  | cons f rest ih =>
    intro off i hi
    obtain ⟨n, d⟩ := f
    cases i with
    | zero => simp [buildL, sumEnc]
    | succ j =>
      have hj : j < rest.length := by simpa using hi
      simp only [buildL, List.getD_cons_succ]
      rw [ih _ j hj]
      have hs : sumEnc ((n, d) :: rest) (j + 1) = (encTotal d).length + sumEnc rest j := by
        simp [sumEnc, List.take_succ_cons]
      rw [hs]
      simp [Nat.add_assoc]

theorem flatten_extract (L : List (List Nat)) :
    ∀ i, i < L.length →
      ((L.flatten).drop (((L.take i).map List.length).sum)).take ((L.getD i []).length) =
        L.getD i [] := by
  induction L with
  | nil => intro i hi; simp at hi
  | cons x rest ih =>
    intro i hi
    cases i with
    | zero =>
      simp only [List.take_zero, List.map_nil, List.sum_nil, List.drop_zero,
        List.flatten_cons, List.getD_cons_zero]
      exact List.take_left x rest.flatten
    | succ j =>
      have hj : j < rest.length := by simpa using hi
      simp only [List.take_succ_cons, List.map_cons, List.sum_cons, List.flatten_cons,
        List.getD_cons_succ]
      rw [← List.drop_drop, List.drop_left]
      exact ih j hj

theorem flatten_uniform_extract (L : List (List Nat)) (h : ∀ x ∈ L, x.length = 80) :
    ∀ i, i < L.length → ((L.flatten).drop (i * 80)).take 80 = L.getD i [] := by
  induction L with
  | nil => intro i hi; simp at hi
  | cons x rest ih =>
    intro i hi
    have hx : x.length = 80 := h x (by simp)
    cases i with
    | zero =>
      simp only [Nat.zero_mul, List.drop_zero, List.flatten_cons, List.getD_cons_zero]
      rw [← hx, List.take_left]
    | succ j =>
      have hj : j < rest.length := by simpa using hi
      simp only [List.flatten_cons, List.getD_cons_succ]
      have harith : (j + 1) * 80 = x.length + j * 80 := by omega
      rw [harith, ← List.drop_drop, List.drop_left]
      exact ih (fun y hy => h y (by simp [hy])) j hj

theorem slotOf_length (t : List Nat × List Nat × Nat) (h : t.1.length ≤ 63) :
    (slotOf t).length = 80 := by
  rw [slotOf]
  exact slot_shape_length _ _ _ _ h

theorem buildSlots_eq (L : List (List Nat × List Nat × Nat))
    (h : ∀ t ∈ L, t.1.length ≤ 63 ∧ t.2.2 < 2 ^ 32 ∧ t.2.1.length < 2 ^ 32) :
    buildSlots L = some ((L.map slotOf).flatten) := by
  induction L with
  | nil => rfl
  | cons t rest ih =>
    obtain ⟨n, e, off⟩ := t
    obtain ⟨h1, h2, h3⟩ := h (n, e, off) (by simp)
    simp [buildSlots, encodeEntrySlot_eq n off e.length e.length h1 h2 h3 h3,
      ih (fun g hg => h g (by simp [hg])), slotOf]

theorem flatten_slots_length (L : List (List Nat × List Nat × Nat))
    (h : ∀ t ∈ L, t.1.length ≤ 63) :
    ((L.map slotOf).flatten).length = 80 * L.length := by
  induction L with
  | nil => simp
  | cons t rest ih =>
    simp only [List.map_cons, List.flatten_cons, List.length_append, List.length_cons]
    rw [slotOf_length t (h t (by simp)), ih (fun g hg => h g (by simp [hg]))]
    ring

theorem lexLeB_total : ∀ a b : List Nat, lexLeB a b = true ∨ lexLeB b a = true := by
  intro a
  induction a with
  | nil => intro b; left; rfl
  | cons x xs ih =>
    intro b
    cases b with
    | nil => right; rfl
    | cons y ys =>
      by_cases h1 : x < y
      · left; simp [lexLeB, h1]
      · by_cases h2 : y < x
        · right; simp [lexLeB, h2]
        · have hxy : x = y := by omega
          subst hxy
          rcases ih ys with h | h
          · left; simp [lexLeB, Nat.lt_irrefl, h]
          · right; simp [lexLeB, Nat.lt_irrefl, h]

theorem lexLeB_trans : ∀ a b c : List Nat, lexLeB a b = true → lexLeB b c = true →
    lexLeB a c = true := by
  intro a
  induction a with
  | nil => intro b c _ _; rfl
  | cons x xs ih =>
    intro b c h1 h2
    cases b with
    | nil => simp [lexLeB] at h1
    | cons y ys =>
      cases c with
      | nil => simp [lexLeB] at h2
      | cons z zs =>
        simp only [lexLeB] at h1 h2 ⊢
        by_cases hxy : x < y
        · rw [if_pos hxy] at h1
          by_cases hyz : y < z
          · rw [if_pos (by omega : x < z)]
          · by_cases hzy : z < y
            · rw [if_neg hyz, if_pos hzy] at h2
              exact absurd h2 (by simp)
            · have hyz2 : y = z := by omega
              subst hyz2
              rw [if_pos hxy]
        · by_cases hyx : y < x
          · rw [if_neg hxy, if_pos hyx] at h1
            exact absurd h1 (by simp)
          · have hx : x = y := by omega
            subst hx
            rw [if_neg hxy, if_neg hyx] at h1
            by_cases hxz : x < z
            · rw [if_pos hxz]
            · by_cases hzx : z < x
              · rw [if_neg hxz, if_pos hzx] at h2
                exact absurd h2 (by simp)
              · have hx2 : x = z := by omega
                subst hx2
                rw [if_neg hxz, if_neg hzx] at h2 ⊢
                exact ih ys zs h1 h2

/-- Python slicing with in-range non-negative endpoints is take and drop. -/
theorem pySlice_nonneg (l : List Nat) (a b : Nat) (ha : a ≤ l.length)
    (hb : b ≤ l.length) :
    pySlice l (a : Int) (b : Int) = (l.take b).drop a := by
  simp only [pySlice]
  have hna : ¬ ((a : Int) < 0) := by omega
  have hnb : ¬ ((b : Int) < 0) := by omega
  rw [if_neg hna, if_neg hnb]
  have h1 : (min (a : Int) (l.length : Int)).toNat = a := by omega
  have h2 : (min (b : Int) (l.length : Int)).toNat = b := by omega
  rw [h1, h2]

theorem pyLast4_append (A c4 : List Nat) (hc : c4.length = 4) :
    pyLast4 (A ++ c4) = c4 := by
  rw [pyLast4]
  have h : (A ++ c4).length - 4 = A.length := by simp [hc]
  rw [h, List.drop_left]

theorem drop_take_append (a b : List Nat) (o k : Nat) (h : o + k ≤ a.length) :
    ((a ++ b).drop o).take k = (a.drop o).take k := by
  rw [List.drop_append_eq_append_drop]
  have h2 : o - a.length = 0 := by omega
  rw [h2, List.drop_zero, List.take_append_eq_append_take]
  have h3 : k - (List.drop o a).length = 0 := by
    simp only [List.length_drop]
    omega
  rw [h3, List.take_zero, List.append_nil]

theorem getD_mem_poly {α : Type} (l : List α) (i : Nat) (hi : i < l.length) (d : α) :
    l.getD i d ∈ l := by
  rw [List.getD_eq_getElem _ _ hi]
  exact List.getElem_mem _

theorem getD_map_lt {α β : Type} (f : α → β) (l : List α) (i : Nat)
    (hi : i < l.length) (d : α) (d2 : β) :
    (l.map f).getD i d2 = f (l.getD i d) := by
  rw [List.getD_eq_getElem _ _ (by simpa using hi), List.getD_eq_getElem _ _ hi,
    List.getElem_map]

theorem filterMap_congr_some {α β : Type} (l : List α) (h : α → Option β)
    (g : α → β) (hy : ∀ x ∈ l, h x = some (g x)) : l.filterMap h = l.map g := by
  induction l with
  | nil => rfl
  | cons a as ih =>
    rw [List.filterMap_cons, hy a (by simp), List.map_cons,
      ih (fun x hx => hy x (by simp [hx]))]

theorem buildL_mem (fs : List (List Nat × List Nat)) :
    ∀ off t, t ∈ buildL fs off → ∃ f ∈ fs, t.1 = f.1 ∧ t.2.1 = encTotal f.2 := by
  induction fs with
  | nil => intro off t ht; simp [buildL] at ht
  | cons f rest ih =>
    intro off t ht
    obtain ⟨n, d⟩ := f
    simp only [buildL, List.mem_cons] at ht
    rcases ht with h | h
    · subst h
      exact ⟨(n, d), by simp, rfl, rfl⟩
    · obtain ⟨g2, hg, hh1, hh2⟩ := ih _ t h
      exact ⟨g2, by simp [hg], hh1, hh2⟩

theorem data_length (fs : List (List Nat × List Nat)) :
    (((buildL fs 0).map (fun t => t.2.1)).flatten).length =
      (fs.map (fun f => (encTotal f.2).length)).sum := by
  rw [buildL_map_payload, List.length_flatten, List.map_map]
  simp [Function.comp_def]

theorem sumEnc_as_takes (fs : List (List Nat × List Nat)) (i : Nat) :
    (((fs.map (fun f => encTotal f.2)).take i).map List.length).sum = sumEnc fs i := by
  rw [← List.map_take, List.map_map, sumEnc]
  simp [Function.comp_def]

/-- Parsing the archive bytes assembled by the write path from the file list fs
yields exactly one entry per file, in order, carrying the name, the encoded
length as both sizes, and the running-sum offset. -/
theorem parse_of_archive (fs : List (List Nat × List Nat))
    (hname63 : ∀ f ∈ fs, f.1.length ≤ 63)
    (hnamez : ∀ f ∈ fs, ∀ b ∈ f.1, b ≠ 0)
    (hnameb : ∀ f ∈ fs, ∀ b ∈ f.1, b < 256)
    (hsum : (fs.map (fun f => (encTotal f.2).length)).sum < 2 ^ 32)
    (hN : fs.length < 2 ^ 32) :
    parse_dat_index
      (((buildL fs 0).map (fun t => t.2.1)).flatten ++
        nibble_swap (((buildL fs 0).map slotOf).flatten) ++ le4 fs.length) =
      (List.range fs.length).map (fun i =>
        { name := (fs.getD i ([], [])).1
          packed_size := (encTotal (fs.getD i ([], [])).2).length
          unpacked_size := (encTotal (fs.getD i ([], [])).2).length
          offset := sumEnc fs i }) := by
  have hmemL : ∀ t ∈ buildL fs 0, t.1.length ≤ 63 ∧ (∀ b ∈ t.1, b < 256) := by
    intro t ht
    obtain ⟨f, hf, h1, _⟩ := buildL_mem fs 0 t ht
    constructor
    · rw [h1]; exact hname63 f hf
    · rw [h1]; exact hnameb f hf
  have hLlen : (buildL fs 0).length = fs.length := buildL_length fs 0
  have hidxlen : (((buildL fs 0).map slotOf).flatten).length = fs.length * 80 := by
    rw [flatten_slots_length _ (fun t ht => (hmemL t ht).1), hLlen]
    ring
  have hnslen : (nibble_swap (((buildL fs 0).map slotOf).flatten)).length =
      fs.length * 80 := by
    rw [nibble_swap_length, hidxlen]
  have hdatlen : ((((buildL fs 0).map (fun t => t.2.1)).flatten ++
      nibble_swap (((buildL fs 0).map slotOf).flatten) ++ le4 fs.length)).length =
      (((buildL fs 0).map (fun t => t.2.1)).flatten).length + fs.length * 80 + 4 := by
    simp only [List.length_append, hnslen, le4_length]
  have hlast : pyLast4 ((((buildL fs 0).map (fun t => t.2.1)).flatten ++
      nibble_swap (((buildL fs 0).map slotOf).flatten)) ++ le4 fs.length) =
      le4 fs.length :=
    pyLast4_append _ _ (le4_length fs.length)
  have hidxb : ∀ b ∈ ((buildL fs 0).map slotOf).flatten, b < 256 := by
    intro b hb
    obtain ⟨sl, hsl, hbsl⟩ := List.mem_flatten.mp hb
    obtain ⟨t, ht, rfl⟩ := List.mem_map.mp hsl
    rw [slotOf] at hbsl
    exact slot_shape_bytes_lt t.1 _ _ _ (hmemL t ht).2 b hbsl
  simp only [parse_dat_index]
  rw [hlast, fromLE_le4 _ hN]
  have harg1 : (((((buildL fs 0).map (fun t => t.2.1)).flatten ++
      nibble_swap (((buildL fs 0).map slotOf).flatten) ++ le4 fs.length)).length : Int) -
      4 - ((fs.length * 80 : Nat) : Int) =
      (((((buildL fs 0).map (fun t => t.2.1)).flatten).length : Nat) : Int) := by
    rw [hdatlen]
    push_cast
    ring
  have harg2 : (((((buildL fs 0).map (fun t => t.2.1)).flatten).length : Nat) : Int) +
      ((fs.length * 80 : Nat) : Int) =
      ((((((buildL fs 0).map (fun t => t.2.1)).flatten).length + fs.length * 80 : Nat)) : Int) := by
    push_cast
    ring
  rw [harg1, harg2, pySlice_nonneg _ _ _ (by omega) (by rw [hdatlen]; omega)]
  have htk : ((((buildL fs 0).map (fun t => t.2.1)).flatten ++
      nibble_swap (((buildL fs 0).map slotOf).flatten) ++ le4 fs.length)).take
      ((((buildL fs 0).map (fun t => t.2.1)).flatten).length + fs.length * 80) =
      ((buildL fs 0).map (fun t => t.2.1)).flatten ++
        nibble_swap (((buildL fs 0).map slotOf).flatten) := by
    have hlen2 : (((buildL fs 0).map (fun t => t.2.1)).flatten ++
        nibble_swap (((buildL fs 0).map slotOf).flatten)).length =
        (((buildL fs 0).map (fun t => t.2.1)).flatten).length + fs.length * 80 := by
      simp [hnslen]
    rw [← hlen2]
    exact List.take_left _ _
  rw [htk, List.drop_left, nibble_swap_invol _ hidxb]
  apply List.map_congr_left
  intro i hi
  rw [List.mem_range] at hi
  have hi2 : i < (buildL fs 0).length := by rw [hLlen]; exact hi
  have hslot80 : ∀ x ∈ (buildL fs 0).map slotOf, x.length = 80 := by
    intro x hx
    obtain ⟨t, ht, rfl⟩ := List.mem_map.mp hx
    exact slotOf_length t (hmemL t ht).1
  rw [flatten_uniform_extract _ hslot80 i (by simpa using hi2),
    getD_map_lt slotOf _ i hi2 ([], [], 0) []]
  rw [buildL_getD fs 0 i hi, Nat.zero_add]
  have hfi : fs.getD i ([], []) ∈ fs := getD_mem_poly fs i hi ([], [])
  have hofflt : sumEnc fs i < 2 ^ 32 := by
    have h1 := sumEnc_le_sum fs i
    omega
  have hlenlt : (encTotal (fs.getD i ([], [])).2).length < 2 ^ 32 := by
    have h1 : (encTotal (fs.getD i ([], [])).2).length ∈
        fs.map (fun f => (encTotal f.2).length) :=
      List.mem_map.mpr ⟨fs.getD i ([], []), hfi, rfl⟩
    have h2 := List.single_le_sum (fun x _ => Nat.zero_le x) _ h1
    omega
  rw [slotOf]
  exact decodeEntrySlot_eq (fs.getD i ([], [])).1 (sumEnc fs i)
    (encTotal (fs.getD i ([], [])).2).length (encTotal (fs.getD i ([], [])).2).length
    (hname63 _ hfi) (hnamez _ hfi) hofflt hlenlt hlenlt

/-- Reading back the archive bytes assembled by the write path from the file
list fs recovers exactly fs: every entry decodes successfully and yields its
original (name, payload) pair in order. -/
theorem read_of_archive (fs : List (List Nat × List Nat))
    (hname63 : ∀ f ∈ fs, f.1.length ≤ 63)
    (hnamez : ∀ f ∈ fs, ∀ b ∈ f.1, b ≠ 0)
    (hnameb : ∀ f ∈ fs, ∀ b ∈ f.1, b < 256)
    (hpay : ∀ f ∈ fs, f.2 ≠ [] ∧ f.2.length ≤ 9 ∧ ∀ b ∈ f.2, b < 256)
    (hsum : (fs.map (fun f => (encTotal f.2).length)).sum < 2 ^ 32)
    (hN : fs.length < 2 ^ 32) :
    read_archive
      (((buildL fs 0).map (fun t => t.2.1)).flatten ++
        nibble_swap (((buildL fs 0).map slotOf).flatten) ++ le4 fs.length) = fs := by
  rw [read_archive, parse_of_archive fs hname63 hnamez hnameb hsum hN,
    List.filterMap_map]
  have hdlen : (((buildL fs 0).map (fun t => t.2.1)).flatten).length =
      (fs.map (fun f => (encTotal f.2).length)).sum := data_length fs
  have hcore : ∀ i ∈ List.range fs.length,
      ((fun e : Entry =>
          (decode_buffer (((((buildL fs 0).map (fun t => t.2.1)).flatten ++
            nibble_swap (((buildL fs 0).map slotOf).flatten) ++
            le4 fs.length).drop e.offset).take e.packed_size) 0).map
            (fun raw => (e.name, raw))) ∘
        (fun i => Entry.mk (fs.getD i ([], [])).1
          (encTotal (fs.getD i ([], [])).2).length
          (encTotal (fs.getD i ([], [])).2).length
          (sumEnc fs i))) i =
      some ((fs.getD i ([], [])).1, (fs.getD i ([], [])).2) := by
    intro i hi
    rw [List.mem_range] at hi
    simp only [Function.comp_apply]
    have hfi : fs.getD i ([], []) ∈ fs := getD_mem_poly fs i hi ([], [])
    have hoffbound : sumEnc fs i + (encTotal (fs.getD i ([], [])).2).length ≤
        (fs.map (fun f => (encTotal f.2).length)).sum := by
      have h1 := sumEnc_succ fs i hi
      have h2 := sumEnc_le_sum fs (i + 1)
      omega
    have hslice : (((((buildL fs 0).map (fun t => t.2.1)).flatten ++
        nibble_swap (((buildL fs 0).map slotOf).flatten) ++
        le4 fs.length).drop (sumEnc fs i)).take
          (encTotal (fs.getD i ([], [])).2).length) =
        encTotal (fs.getD i ([], [])).2 := by
      rw [List.append_assoc, drop_take_append _ _ _ _ (by omega)]
      rw [buildL_map_payload]
      have hext := flatten_extract (fs.map (fun f => encTotal f.2)) i (by simpa using hi)
      rw [sumEnc_as_takes fs i] at hext
      rw [getD_map_lt (fun f => encTotal f.2) fs i hi ([], []) []] at hext
      exact hext
    rw [hslice]
    obtain ⟨hne, h9, hb⟩ := hpay _ hfi
    rw [decode_encTotal _ hne h9 hb]
    rfl
  rw [filterMap_congr_some _ _ _ hcore]
  apply List.ext_getElem
  · simp
  · intro n h1 h2
    simp only [List.getElem_map, List.getElem_range]
    rw [List.getD_eq_getElem _ _ h2]

theorem buildL_mem_bound (fs : List (List Nat × List Nat)) :
    ∀ off t, t ∈ buildL fs off →
      off ≤ t.2.2 ∧
        t.2.2 + t.2.1.length ≤ off + (fs.map (fun f => (encTotal f.2).length)).sum := by
  induction fs with
  | nil => intro off t ht; simp [buildL] at ht
  | cons f rest ih =>
    intro off t ht
    obtain ⟨n, d⟩ := f
    simp only [buildL, List.mem_cons] at ht
    rcases ht with h | h
    · subst h
      simp only [List.map_cons, List.sum_cons]
      omega
    · have h2 := ih (off + (encTotal d).length) t h
      simp only [List.map_cons, List.sum_cons]
      omega

theorem length_le_sum_of_pos (l : List Nat) (h : ∀ x ∈ l, 1 ≤ x) :
    l.length ≤ l.sum := by
  induction l with
  | nil => simp
  | cons x xs ih =>
    simp only [List.length_cons, List.sum_cons]
    have h1 := h x (by simp)
    have h2 := ih (fun y hy => h y (by simp [hy]))
    omega

/-- The write path succeeds on sorted non-empty payloads within 32-bit bounds
and produces the concatenated data region, the nibble-swapped index and the
trailing count. -/
theorem write_archive_eq (files : List (List Nat × List Nat))
    (hpne : ∀ f ∈ files, f.2 ≠ [])
    (hname63 : ∀ f ∈ files, f.1.length ≤ 63)
    (hsum : (files.map (fun f => (encTotal f.2).length)).sum < 2 ^ 32)
    (hN : files.length < 2 ^ 32) :
    write_archive files =
      some (((buildL (sortFiles files) 0).map (fun t => t.2.1)).flatten ++
        nibble_swap (((buildL (sortFiles files) 0).map slotOf).flatten) ++
        le4 files.length) := by
  have hperm : (sortFiles files).Perm files := List.perm_insertionSort _ _
  have hmem : ∀ f ∈ sortFiles files, f ∈ files := fun f hf => hperm.mem_iff.mp hf
  have hpne2 : ∀ f ∈ sortFiles files, f.2 ≠ [] := fun f hf => hpne f (hmem f hf)
  have hsum2 : ((sortFiles files).map (fun f => (encTotal f.2).length)).sum =
      (files.map (fun f => (encTotal f.2).length)).sum := (hperm.map _).sum_eq
  have hslotcond : ∀ t ∈ buildL (sortFiles files) 0,
      t.1.length ≤ 63 ∧ t.2.2 < 2 ^ 32 ∧ t.2.1.length < 2 ^ 32 := by
    intro t ht
    obtain ⟨f, hf, h1, _⟩ := buildL_mem _ 0 t ht
    have hb := buildL_mem_bound _ 0 t ht
    rw [hsum2] at hb
    refine ⟨?_, by omega, by omega⟩
    rw [h1]
    exact hname63 f (hmem f hf)
  simp only [write_archive]
  rw [encodeFilesLoop_eq _ 0 hpne2]
  simp only [Option.bind_eq_bind, Option.some_bind]
  rw [buildSlots_eq _ hslotcond]
  simp only [Option.some_bind]
  rw [toLE4opt_eq _ hN]
  simp only [Option.some_bind, Option.pure_def]

theorem buildL_offsets (fs : List (List Nat × List Nat)) :
    ∀ off, (buildL fs off).map (fun t => t.2.2) =
      scanOffsets (fs.map (fun f => (encTotal f.2).length)) off := by
  induction fs with
  | nil => intro off; rfl
  | cons f rest ih =>
    intro off
    obtain ⟨n, d⟩ := f
    simp [buildL, scanOffsets, ih]

theorem decodeMode1_frame (s p : Nat) (buf : List Nat) (h4 : (s + p) % 4 ≠ 1)
    (h3 : (s + p) % 3 ≠ 0) (h6 : (s + p) % 6 ≠ 2) :
    (decodeMode1 s buf).getD p 0 = buf.getD p 0 := by
  by_cases hp : p < buf.length
  · rw [decodeMode1_getD _ _ _ hp]
    simp [t1byte, t2byte, t3byte, h4, h3, h6]
  · rw [List.getD_eq_default _ _ (by rw [decodeMode1_length]; omega),
      List.getD_eq_default _ _ (by omega)]

theorem decodeMode2_frame (s p : Nat) (buf : List Nat) (h4 : (s + p) % 4 ≠ 1)
    (h3 : (s + p) % 3 ≠ 0) (h6 : (s + p) % 6 ≠ 2) :
    (decodeMode2 s buf).getD p 0 = buf.getD p 0 := by
  by_cases hp : p < buf.length
  · rw [decodeMode2_getD _ _ _ hp]
    simp [t1byte, t2byte, t3byte, h4, h3, h6]
  · rw [List.getD_eq_default _ _ (by rw [decodeMode2_length]; omega),
      List.getD_eq_default _ _ (by omega)]

theorem encodeMode1_frame (s p : Nat) (buf : List Nat) (h4 : (s + p) % 4 ≠ 1)
    (h3 : (s + p) % 3 ≠ 0) (h6 : (s + p) % 6 ≠ 2) :
    (encodeMode1 s buf).getD p 0 = buf.getD p 0 := by
  by_cases hp : p < buf.length
  · rw [encodeMode1_getD _ _ _ hp]
    simp [t1byte, t2byte, t3byte, h4, h3, h6]
  · rw [List.getD_eq_default _ _ (by rw [encodeMode1_length]; omega),
      List.getD_eq_default _ _ (by omega)]

theorem encodeMode2_frame (s p : Nat) (buf : List Nat) (h4 : (s + p) % 4 ≠ 1)
    (h3 : (s + p) % 3 ≠ 0) (h6 : (s + p) % 6 ≠ 2) :
    (encodeMode2 s buf).getD p 0 = buf.getD p 0 := by
  by_cases hp : p < buf.length
  · rw [encodeMode2_getD _ _ _ hp]
    simp [t1byte, t2byte, t3byte, h4, h3, h6]
  · rw [List.getD_eq_default _ _ (by rw [encodeMode2_length]; omega),
      List.getD_eq_default _ _ (by omega)]

/-- C1 (counterexample): the mode A round trip fails as the claim states it for
the 10-byte payload 0x80 followed by nine zero bytes, which satisfies the
claim conditions (non-empty, first byte at least 0x80, start offset 0): the
read back payload carries 8 instead of 0 at position 9, because the encoder
selects mode A on the plaintext while the decoder selects mode B on the
ciphertext, and positions congruent to 9 modulo 12 are hit by both stage T1
and stage T2, which do not commute. -/
theorem C1_counterexample :
    128 ≤ ([128, 0, 0, 0, 0, 0, 0, 0, 0, 0] : List Nat).getD 0 0 ∧
      (encode_buffer [128, 0, 0, 0, 0, 0, 0, 0, 0, 0] 0).bind
        (fun e => decode_buffer e 0) = some [128, 0, 0, 0, 0, 0, 0, 0, 0, 8] ∧
      ([128, 0, 0, 0, 0, 0, 0, 0, 0, 8] : List Nat) ≠
        [128, 0, 0, 0, 0, 0, 0, 0, 0, 0] := by
  refine ⟨by decide, by decide, by decide⟩

/-- C1 (amended): for every non-empty payload of at most 9 bytes whose first
byte has its high bit set, applying encode_buffer with start_offset 0 and then
decode_buffer with start_offset 0 returns the original payload. -/
theorem C1_mode_a_roundtrip (buf : List Nat) (hne : buf ≠ [])
    (_hb0 : 128 ≤ buf.getD 0 0) (hlen : buf.length ≤ 9)
    (hb : ∀ b ∈ buf, b < 256) :
    (encode_buffer buf 0).bind (fun e => decode_buffer e 0) = some buf :=
  roundtrip_len9 buf hne hlen hb

theorem C1_mode_a_roundtrip_witness :
    ([128] : List Nat) ≠ [] ∧ 128 ≤ ([128] : List Nat).getD 0 0 ∧
      ([128] : List Nat).length ≤ 9 ∧ (∀ b ∈ ([128] : List Nat), b < 256) ∧
      (encode_buffer [128] 0).bind (fun e => decode_buffer e 0) = some [128] :=
  ⟨by decide, by decide, by decide, by decide,
    C1_mode_a_roundtrip [128] (by decide) (by decide) (by decide) (by decide)⟩

/-- C4: for every byte buffer and every non-zero start offset both operations
deterministically select mode A, and decode_buffer applied with that offset to
the result of encode_buffer with the same offset returns the original
buffer. -/
theorem C4_nonzero_offset_roundtrip (buf : List Nat) (s : Nat) (hs : s ≠ 0)
    (hb : ∀ b ∈ buf, b < 256) :
    (encode_buffer buf s).bind (fun e => decode_buffer e s) = some buf :=
  roundtrip_offset buf s hs hb

theorem C4_nonzero_offset_roundtrip_witness :
    (5 : Nat) ≠ 0 ∧ (∀ b ∈ ([7, 200, 13] : List Nat), b < 256) ∧
      (encode_buffer [7, 200, 13] 5).bind (fun e => decode_buffer e 5) =
        some [7, 200, 13] :=
  ⟨by decide, by decide,
    C4_nonzero_offset_roundtrip [7, 200, 13] 5 (by decide) (by decide)⟩

/-- C5: for a non-empty byte payload whose first byte has its high bit clear,
if the first byte of the encode_buffer output at start_offset 0 also has its
high bit clear then decode_buffer at start_offset 0 returns the original
payload.  The inner condition is never satisfied: the encoded first byte is
always the plaintext first byte XORed with 0xFF, whose high bit is then set,
so the mode B round trip guard of the specification is vacuous. -/
theorem C5_mode_b_roundtrip (buf : List Nat) (hne : buf ≠ [])
    (hb : ∀ b ∈ buf, b < 256) (h0 : buf.getD 0 0 < 128) :
    ∀ e, encode_buffer buf 0 = some e →
      (e.getD 0 0 < 128 → decode_buffer e 0 = some buf) := by
  intro e hE hlt
  obtain ⟨b0, rest, rfl⟩ : ∃ b0 r2, buf = b0 :: r2 := by
    cases buf with
    | nil => exact absurd rfl hne
    | cons x xs => exact ⟨x, xs, rfl⟩
  have hb0 : b0 < 256 := hb _ (by simp)
  have h02 : b0 < 128 := by simpa using h0
  have hEe : e = encodeMode2 0 (b0 :: rest) := by
    rw [show encode_buffer (b0 :: rest) 0 = some (encodeMode2 0 (b0 :: rest)) from by
      simp [encode_buffer, h02]] at hE
    exact (Option.some_inj.mp hE).symm
  have hhead : e.getD 0 0 = b0 ^^^ 255 := by
    rw [hEe]
    exact encodeMode2_head b0 rest
  have hge := (xor255_semantics b0 hb0).1 h02
  rw [hhead] at hlt
  exact absurd hlt (by omega)

theorem C5_mode_b_roundtrip_witness :
    ([65] : List Nat) ≠ [] ∧ (∀ b ∈ ([65] : List Nat), b < 256) ∧
      ([65] : List Nat).getD 0 0 < 128 ∧ encode_buffer [65] 0 = some [190] ∧
      (([190] : List Nat).getD 0 0 < 128 → decode_buffer [190] 0 = some [65]) :=
  ⟨by decide, by decide, by decide, by decide,
    C5_mode_b_roundtrip [65] (by decide) (by decide) (by decide) [190] (by decide)⟩

/-- C9: with start_offset 0 both decode_buffer and encode_buffer read buf[0]
to select the mode before any stage runs, so on a zero-length buffer they fail
with an out-of-range index error (modelled as none) instead of acting as a
no-op; with any non-zero start_offset a zero-length buffer is left unchanged
and no error occurs. -/
theorem C9_empty_buffer (s : Nat) (hs : s ≠ 0) :
    decode_buffer [] 0 = none ∧ encode_buffer [] 0 = none ∧
      decode_buffer [] s = some [] ∧ encode_buffer [] s = some [] := by
  refine ⟨rfl, rfl, ?_, ?_⟩
  · simp [decode_buffer, hs, decodeMode1_nil]
  · simp [encode_buffer, hs, encodeMode1_nil]

theorem C9_empty_buffer_witness :
    (5 : Nat) ≠ 0 ∧ decode_buffer [] 0 = none ∧ encode_buffer [] 0 = none ∧
      decode_buffer [] 5 = some [] ∧ encode_buffer [] 5 = some [] :=
  ⟨by decide, C9_empty_buffer 5 (by decide)⟩

/-- C10: for every buffer, start offset s and position p whose absolute
position s + p is congruent to neither 1 modulo 4, nor 0 modulo 3, nor 2
modulo 6, both decode_buffer and encode_buffer leave the byte at position p
unchanged, and both always preserve the buffer length. -/
theorem C10_frame (buf : List Nat) (s p : Nat)
    (h4 : (s + p) % 4 ≠ 1) (h3 : (s + p) % 3 ≠ 0) (h6 : (s + p) % 6 ≠ 2) :
    (decode_buffer buf s).elim True (fun out =>
      out.length = buf.length ∧ out.getD p 0 = buf.getD p 0) ∧
    (encode_buffer buf s).elim True (fun out =>
      out.length = buf.length ∧ out.getD p 0 = buf.getD p 0) := by
  rcases Nat.eq_zero_or_pos s with hs0 | hs0
  · subst hs0
    cases buf with
    | nil => exact ⟨trivial, trivial⟩
    | cons b0 rest =>
      by_cases hb0 : b0 < 128
      · constructor
        · rw [show decode_buffer (b0 :: rest) 0 = some (decodeMode2 0 (b0 :: rest)) from by
            simp [decode_buffer, hb0]]
          exact ⟨decodeMode2_length _ _, decodeMode2_frame 0 p _ h4 h3 h6⟩
        · rw [show encode_buffer (b0 :: rest) 0 = some (encodeMode2 0 (b0 :: rest)) from by
            simp [encode_buffer, hb0]]
          exact ⟨encodeMode2_length _ _, encodeMode2_frame 0 p _ h4 h3 h6⟩
      · constructor
        · rw [show decode_buffer (b0 :: rest) 0 = some (decodeMode1 0 (b0 :: rest)) from by
            simp [decode_buffer, hb0]]
          exact ⟨decodeMode1_length _ _, decodeMode1_frame 0 p _ h4 h3 h6⟩
        · rw [show encode_buffer (b0 :: rest) 0 = some (encodeMode1 0 (b0 :: rest)) from by
            simp [encode_buffer, hb0]]
          exact ⟨encodeMode1_length _ _, encodeMode1_frame 0 p _ h4 h3 h6⟩
  · have hs : s ≠ 0 := by omega
    constructor
    · rw [show decode_buffer buf s = some (decodeMode1 s buf) from by
        simp [decode_buffer, hs]]
      exact ⟨decodeMode1_length _ _, decodeMode1_frame s p _ h4 h3 h6⟩
    · rw [show encode_buffer buf s = some (encodeMode1 s buf) from by
        simp [encode_buffer, hs]]
      exact ⟨encodeMode1_length _ _, encodeMode1_frame s p _ h4 h3 h6⟩

theorem C10_frame_witness :
    ((7 + 0) % 4 ≠ 1) ∧ ((7 + 0) % 3 ≠ 0) ∧ ((7 + 0) % 6 ≠ 2) ∧
      ((decode_buffer [9] 7).elim True (fun out =>
        out.length = ([9] : List Nat).length ∧ out.getD 0 0 = ([9] : List Nat).getD 0 0) ∧
      (encode_buffer [9] 7).elim True (fun out =>
        out.length = ([9] : List Nat).length ∧ out.getD 0 0 = ([9] : List Nat).getD 0 0)) :=
  ⟨by decide, by decide, by decide,
    C10_frame [9] 7 0 (by decide) (by decide) (by decide)⟩

/-- C3: packing the single file named a.txt (bytes 97, 46, 116, 120, 116) with
payload bytes 0x41 0x42 0x43 0x44 0x45 selects mode B on encode (first byte
0x41 below 0x80, stage order T1 then T2 then T3), and extracting the resulting
archive recovers exactly those five bytes: the decoder independently selects
mode B-complement mode 1 from the ciphertext first byte and the stages cancel
on this 5-byte payload. -/
theorem C3_concrete_scenario :
    encode_buffer [65, 66, 67, 68, 69] 0 =
      some (encodeMode2 0 [65, 66, 67, 68, 69]) ∧
    (write_archive [([97, 46, 116, 120, 116], [65, 66, 67, 68, 69])]).map
        read_archive =
      some [([97, 46, 116, 120, 116], [65, 66, 67, 68, 69])] := by
  refine ⟨by decide, by decide⟩

/-- C6 (counterexample): a 85-byte archive whose single index entry has
offset 0 and packed_size 5 while index_start is 1, so offset + packed_size
exceeds index_start, is read without any failure: the Python slice clamps into
the index region and the read path produces an entry with a payload, where the
claim demands a FormatError. -/
theorem C6_counterexample :
    (encodeEntrySlot [97] 0 5 5).map
        (fun sl => read_archive ([128] ++ nibble_swap sl ++ [1, 0, 0, 0])) =
      some [([97], [127, 234, 0, 1, 0])] ∧
    (encodeEntrySlot [97] 0 5 5).map
        (fun sl => ([128] ++ nibble_swap sl ++ [1, 0, 0, 0]).length) = some 85 ∧
    0 + 5 > 85 - 4 - 80 * 1 := by
  refine ⟨by decide, by decide, by decide⟩

/-- C6 (amended): the read path performs no FormatError validation at all; in
particular an archive whose trailing 4-byte count is zero (a non-positive
count) parses successfully to an empty entry list and reads back as an empty
file list instead of failing. -/
theorem C6_no_validation (dat : List Nat) (_h4 : 4 ≤ dat.length)
    (h0 : fromLEbytes (pyLast4 dat) = 0) :
    parse_dat_index dat = [] ∧ read_archive dat = [] := by
  have hp : parse_dat_index dat = [] := by
    simp only [parse_dat_index, h0]
    simp
  exact ⟨hp, by rw [read_archive, hp]; rfl⟩

theorem C6_no_validation_witness :
    4 ≤ ([0, 0, 0, 0] : List Nat).length ∧
      fromLEbytes (pyLast4 [0, 0, 0, 0]) = 0 ∧
      parse_dat_index [0, 0, 0, 0] = [] ∧ read_archive [0, 0, 0, 0] = [] :=
  ⟨by decide, by decide, C6_no_validation [0, 0, 0, 0] (by decide) (by decide)⟩

/-- C7 (counterexample): the name 97, 0, 98 encodes to 3 UTF-8 bytes, within
the claim conditions, but the slot round trip loses everything after the
interior null byte: the decoded entry carries name 97 only. -/
theorem C7_counterexample :
    ([97, 0, 98] : List Nat).length ≤ 63 ∧
    (encodeEntrySlot [97, 0, 98] 1 2 3).map decodeEntrySlot =
      some { name := [97], packed_size := 3, unpacked_size := 2, offset := 1 } ∧
    ([97] : List Nat) ≠ [97, 0, 98] := by
  refine ⟨by decide, by decide, by decide⟩

/-- C7 (amended): for every entry whose name is a null-free byte string of at
most 63 bytes and whose offset, unpacked_size and packed_size are within
unsigned 32-bit range, decoding the encoded 80-byte slot returns an entry
equal to the original in name, offset, unpacked_size and packed_size. -/
theorem C7_entry_roundtrip (name : List Nat) (o u p : Nat)
    (h63 : name.length ≤ 63) (hz : ∀ b ∈ name, b ≠ 0)
    (ho : o < 2 ^ 32) (hu : u < 2 ^ 32) (hp : p < 2 ^ 32) :
    (encodeEntrySlot name o u p).map decodeEntrySlot =
      some { name := name, packed_size := p, unpacked_size := u, offset := o } := by
  rw [encodeEntrySlot_eq name o u p h63 ho hu hp, Option.map_some',
    decodeEntrySlot_eq name o u p h63 hz ho hu hp]

theorem C7_entry_roundtrip_witness :
    ([97, 98] : List Nat).length ≤ 63 ∧ (∀ b ∈ ([97, 98] : List Nat), b ≠ 0) ∧
      (1 : Nat) < 2 ^ 32 ∧ (2 : Nat) < 2 ^ 32 ∧ (3 : Nat) < 2 ^ 32 ∧
      (encodeEntrySlot [97, 98] 1 2 3).map decodeEntrySlot =
        some { name := [97, 98], packed_size := 3, unpacked_size := 2, offset := 1 } :=
  ⟨by decide, by decide, by decide, by decide, by decide,
    C7_entry_roundtrip [97, 98] 1 2 3 (by decide) (by decide) (by decide) (by decide)
      (by decide)⟩

/-- C2 (counterexample): the archive round trip fails as the claim states it
for the single file named 97 with a 10-byte all-zero payload, which satisfies
the claim conditions (unique names, name within 63 bytes, payload at least
1 byte): reading the written archive yields 248 instead of 0 at payload
position 9, so the resulting (name, payload) set differs from the input. -/
theorem C2_counterexample :
    (∀ f ∈ ([([97], List.replicate 10 0)] : List (List Nat × List Nat)),
      f.1.length ≤ 63 ∧ 1 ≤ f.2.length) ∧
    (write_archive [([97], List.replicate 10 0)]).map read_archive =
      some [([97], [0, 0, 0, 0, 0, 0, 0, 0, 0, 248])] ∧
    ([([97], [0, 0, 0, 0, 0, 0, 0, 0, 0, 248])] : List (List Nat × List Nat)) ≠
      [([97], List.replicate 10 0)] := by
  refine ⟨by decide, by decide, by decide⟩

/-- C2 (amended): for every input file set with unique null-free names of at
most 63 bytes, payloads of 1 to 9 bytes, and total payload size below 2^32,
building the archive bytes as the write path does and reading them back as the
read path does yields the name-sorted input file list, hence the same set of
(name, payload) pairs as the input. -/
theorem C2_archive_roundtrip (files : List (List Nat × List Nat))
    (_huniq : files.Pairwise (fun a b => a.1 ≠ b.1))
    (hname : ∀ f ∈ files, f.1.length ≤ 63 ∧ (∀ b ∈ f.1, b < 256) ∧ (∀ b ∈ f.1, b ≠ 0))
    (hpay : ∀ f ∈ files, f.2 ≠ [] ∧ f.2.length ≤ 9 ∧ (∀ b ∈ f.2, b < 256))
    (hsum : (files.map (fun f => f.2.length)).sum < 2 ^ 32) :
    (write_archive files).map read_archive = some (sortFiles files) ∧
      (sortFiles files).Perm files := by
  have hperm : (sortFiles files).Perm files := List.perm_insertionSort _ _
  have hmem : ∀ f ∈ sortFiles files, f ∈ files := fun f hf => hperm.mem_iff.mp hf
  have hsumenc : (files.map (fun f => (encTotal f.2).length)).sum =
      (files.map (fun f => f.2.length)).sum := by
    congr 1
    exact List.map_congr_left (fun f _ => encTotal_length f.2)
  have hsum2 : (files.map (fun f => (encTotal f.2).length)).sum < 2 ^ 32 := by
    rw [hsumenc]; exact hsum
  have hN : files.length < 2 ^ 32 := by
    have h1 : files.length ≤ (files.map (fun f => f.2.length)).sum := by
      have hpos : ∀ x ∈ files.map (fun f => f.2.length), 1 ≤ x := by
        intro x hx
        obtain ⟨f, hf, rfl⟩ := List.mem_map.mp hx
        have h2 := (hpay f hf).1
        have h3 := List.length_pos.mpr h2
        omega
      have h4 := length_le_sum_of_pos (files.map (fun f => f.2.length)) hpos
      simpa using h4
    omega
  have hw := write_archive_eq files (fun f hf => (hpay f hf).1)
    (fun f hf => (hname f hf).1) hsum2 hN
  refine ⟨?_, hperm⟩
  rw [hw, Option.map_some']
  congr 1
  have hlenfs : (sortFiles files).length = files.length := hperm.length_eq
  rw [← hlenfs]
  exact read_of_archive (sortFiles files)
    (fun f hf => (hname f (hmem f hf)).1)
    (fun f hf => (hname f (hmem f hf)).2.2)
    (fun f hf => (hname f (hmem f hf)).2.1)
    (fun f hf => hpay f (hmem f hf))
    (by rw [(hperm.map _).sum_eq]; exact hsum2)
    (by rw [hlenfs]; exact hN)

theorem C2_archive_roundtrip_witness :
    (([([97], [1])] : List (List Nat × List Nat)).Pairwise
      (fun a b => a.1 ≠ b.1)) ∧
    (∀ f ∈ ([([97], [1])] : List (List Nat × List Nat)),
      f.1.length ≤ 63 ∧ (∀ b ∈ f.1, b < 256) ∧ (∀ b ∈ f.1, b ≠ 0)) ∧
    (∀ f ∈ ([([97], [1])] : List (List Nat × List Nat)),
      f.2 ≠ [] ∧ f.2.length ≤ 9 ∧ (∀ b ∈ f.2, b < 256)) ∧
    (([([97], [1])] : List (List Nat × List Nat)).map (fun f => f.2.length)).sum <
      2 ^ 32 ∧
    ((write_archive [([97], [1])]).map read_archive =
      some (sortFiles [([97], [1])]) ∧
      (sortFiles [([97], [1])]).Perm [([97], [1])]) :=
  ⟨by decide, by decide, by decide, by decide,
    C2_archive_roundtrip [([97], [1])] (by decide) (by decide) (by decide) (by decide)⟩

/-- C8: the write path orders the archive entries by name in lexicographic
byte order, assigns each entry offset as the running sum, starting at 0, of
the encoded payload lengths of the preceding entries in sort order, and lays
the encoded payloads into the data region in the same order (the data region
is the prefix of any archive the write path produces). -/
theorem C8_sort_and_offsets (files : List (List Nat × List Nat))
    (hpne : ∀ f ∈ files, f.2 ≠ []) :
    encodeFilesLoop (sortFiles files) 0 = some (buildL (sortFiles files) 0) ∧
    ((buildL (sortFiles files) 0).map (fun t => t.1)).Pairwise
      (fun a b => lexLeB a b = true) ∧
    (buildL (sortFiles files) 0).map (fun t => t.2.2) =
      scanOffsets ((sortFiles files).map (fun f => (encTotal f.2).length)) 0 ∧
    (write_archive files).elim True (fun dat =>
      dat.take ((((buildL (sortFiles files) 0).map (fun t => t.2.1)).flatten).length) =
        ((buildL (sortFiles files) 0).map (fun t => t.2.1)).flatten) := by
  have hperm : (sortFiles files).Perm files := List.perm_insertionSort _ _
  have hpne2 : ∀ f ∈ sortFiles files, f.2 ≠ [] := fun f hf =>
    hpne f (hperm.mem_iff.mp hf)
  refine ⟨encodeFilesLoop_eq _ 0 hpne2, ?_, buildL_offsets _ 0, ?_⟩
  · rw [buildL_map_name, List.pairwise_map]
    haveI h1 : IsTotal (List Nat × List Nat) fileLe :=
      ⟨fun a b => lexLeB_total a.1 b.1⟩
    haveI h2 : IsTrans (List Nat × List Nat) fileLe :=
      ⟨fun a b c => lexLeB_trans a.1 b.1 c.1⟩
    exact List.sorted_insertionSort fileLe files
  · cases hw : write_archive files with
    | none => exact trivial
    | some dat =>
      simp only [write_archive] at hw
      rw [encodeFilesLoop_eq _ 0 hpne2] at hw
      simp only [Option.bind_eq_bind, Option.some_bind] at hw
      cases hS : buildSlots (buildL (sortFiles files) 0) with
      | none => rw [hS] at hw; simp at hw
      | some idx2 =>
        rw [hS] at hw
        simp only [Option.some_bind] at hw
        cases hC : toLE4opt files.length with
        | none => rw [hC] at hw; simp at hw
        | some c4 =>
          rw [hC] at hw
          simp only [Option.some_bind, Option.pure_def] at hw
          have hd := Option.some_inj.mp hw
          simp only [Option.elim]
          rw [← hd, List.append_assoc]
          exact List.take_left _ _

theorem C8_sort_and_offsets_witness :
    (∀ f ∈ ([([98], [1]), ([97], [2])] : List (List Nat × List Nat)), f.2 ≠ []) ∧
    (encodeFilesLoop (sortFiles [([98], [1]), ([97], [2])]) 0 =
      some (buildL (sortFiles [([98], [1]), ([97], [2])]) 0) ∧
    ((buildL (sortFiles [([98], [1]), ([97], [2])]) 0).map (fun t => t.1)).Pairwise
      (fun a b => lexLeB a b = true) ∧
    (buildL (sortFiles [([98], [1]), ([97], [2])]) 0).map (fun t => t.2.2) =
      scanOffsets ((sortFiles [([98], [1]), ([97], [2])]).map
        (fun f => (encTotal f.2).length)) 0 ∧
    (write_archive [([98], [1]), ([97], [2])]).elim True (fun dat =>
      dat.take ((((buildL (sortFiles [([98], [1]), ([97], [2])]) 0).map
          (fun t => t.2.1)).flatten).length) =
        ((buildL (sortFiles [([98], [1]), ([97], [2])]) 0).map
          (fun t => t.2.1)).flatten)) :=
  ⟨by decide, C8_sort_and_offsets [([98], [1]), ([97], [2])] (by decide)⟩
